import Mathlib

/-!
# Verification of the webscraper crawl core

A shallow embedding of the crawler's URL canonicalization, link filtering,
dual-checksum change detection, storage upserts and the BFS crawl loop,
with theorems settling the specification claims.

Python's `urllib.parse` functions (`urlparse`, `urlunparse`, `urljoin`,
`urldefrag`) are modelled character-for-character on `List Char` for the
absolute and relative URL forms exercised here; `params` are kept joined
with the path (Python splits them out of the last path segment and
`geturl` re-joins them with `;`, which is the identity for every function
modelled below), and the IPv6-bracket `ValueError` check is omitted.
-/

namespace WebScraper

/-! ## Python string primitives -/

/-- Split at the first occurrence of `c` : the part before it and, when `c`
occurs, `some` of the part after it.  Models Python `str.split(c, 1)`. -/
def splitFirst (c : Char) : List Char → List Char × Option (List Char)
  | [] => ([], none)
  | x :: xs =>
    if x = c then ([], some xs)
    else
      let r := splitFirst c xs
      (x :: r.1, r.2)

/-- Python `str.lower()` (ASCII case folding suffices for the hosts here). -/
def lower (l : List Char) : List Char := l.map Char.toLower

/-- Remove every trailing `'/'`; models Python `str.rstrip("/")`. -/
def rstripSlash : List Char → List Char
  | [] => []
  | c :: rest =>
    let r := rstripSlash rest
    if r = [] then (if c = '/' then [] else [c]) else c :: r

/-- Characters allowed in a URL scheme (Python `scheme_chars`). -/
def schemeChar (c : Char) : Bool :=
  c.isAlpha || c.isDigit || c = '+' || c = '-' || c = '.'

/-- Python `urlsplit`'s scheme validity test: nonempty, leading ASCII
letter, every character a scheme character. -/
def isValidScheme : List Char → Bool
  | [] => false
  | c :: cs => c.isAlpha && (c :: cs).all schemeChar

/-! ## `urlparse` / `urlunparse` -/

/-- The components of a parsed URL (`params` kept inside `path`). -/
structure Parts where
  scheme : List Char
  netloc : List Char
  path : List Char
  query : List Char
  fragment : List Char
deriving DecidableEq, Repr

/-- Split off `scheme:` when the text before the first `:` is a valid
scheme; the scheme is lower-cased, as in Python. -/
def splitScheme (l : List Char) : List Char × List Char :=
  match splitFirst ':' l with
  | (pre, some post) => if isValidScheme pre then (lower pre, post) else ([], l)
  | (_, none) => ([], l)

/-- A character ending the netloc portion. -/
def netlocEnd (c : Char) : Bool := c = '/' || c = '?' || c = '#'

/-- After `//`, the netloc extends to the first of `/`, `?`, `#`. -/
def splitNetloc : List Char → List Char × List Char
  | '/' :: '/' :: rest =>
    (rest.takeWhile (fun c => !netlocEnd c), rest.dropWhile (fun c => !netlocEnd c))
  | l => ([], l)

/-- Model of Python `urlparse` (scheme, then netloc, then fragment at the
first `#`, then query at the first `?`). -/
def parseURL (l : List Char) : Parts :=
  let s := splitScheme l
  let n := splitNetloc s.2
  let f := splitFirst '#' n.2
  let q := splitFirst '?' f.1
  ⟨s.1, n.1, q.1, q.2.getD [], f.2.getD []⟩

/-- Model of Python `urlunparse` on `Parts` (the `geturl` of a parse
result): `//netloc` is emitted when the netloc is nonempty or the path
starts with `//`; `?query` and `#fragment` only when nonempty. -/
def unparseURL (p : Parts) : List Char :=
  let url := p.path
  let url :=
    if p.netloc ≠ [] ∨ url.take 2 = ['/', '/'] then
      '/' :: '/' :: (p.netloc ++ (if url ≠ [] ∧ url.head? ≠ some '/' then '/' :: url else url))
    else url
  let url := if p.scheme ≠ [] then p.scheme ++ ':' :: url else url
  let url := if p.query ≠ [] then url ++ '?' :: p.query else url
  if p.fragment ≠ [] then url ++ '#' :: p.fragment else url

/-! ## `Crawler.canonical` and the domain helpers (src/src/crawler/crawler.py) -/

/-- `Crawler.canonical` on character lists: parse, lower-case the netloc,
drop the fragment, re-serialize, strip trailing `/` characters. -/
def canonicalL (l : List Char) : List Char :=
  let u := parseURL l
  rstripSlash (unparseURL { u with netloc := lower u.netloc, fragment := [] })

/-- `Crawler.canonical`. -/
def canonical (s : String) : String := ⟨canonicalL s.data⟩

/-- The inner `strip_www` helper of `Crawler.is_same_domain`:
`netloc.lower().lstrip('www.')` removes every leading `'w'` or `'.'`. -/
def stripWww (l : List Char) : List Char :=
  (lower l).dropWhile (fun c => c = 'w' || c = '.')

/-- `Crawler.is_same_domain`: compare the two hosts after `strip_www`. -/
def isSameDomain (u1 u2 : String) : Bool :=
  stripWww (parseURL u1.data).netloc == stripWww (parseURL u2.data).netloc

/-- `Crawler.is_crawlable_url`. -/
def isCrawlableUrl (s : String) : Bool :=
  "http://".data.isPrefixOf s.data || "https://".data.isPrefixOf s.data

/-- Model of Python `urldefrag`: with a `#` present, parse and re-serialize
without the fragment; otherwise return the input unchanged. -/
def urldefragL (l : List Char) : List Char :=
  if l.contains '#' then
    let u := parseURL l
    unparseURL { u with fragment := [] }
  else l

example : canonical "https://WWW.Example.com/a/?b=2&a=1" = "https://www.example.com/a/?b=2&a=1" := by
  decide

example : canonical "https://example.com/a?a=1&b=2" = "https://example.com/a?a=1&b=2" := by
  decide

example : canonical "https://Example.com/page/#section?param=value" = "https://example.com/page" := by
  decide

example : canonical "https://example.com/p?/" = "https://example.com/p?" := by decide

example : canonical "https://example.com/p?" = "https://example.com/p" := by decide

example : isSameDomain "https://web.com/x" "https://eb.com/y" = true := by decide

example : isSameDomain "https://aezion.com/page" "https://www.aezion.com/other" = true := by
  decide

example : isSameDomain "https://aezion.com/page" "https://other.com/page" = false := by
  decide

/-! ## `urljoin` (Python `urllib.parse.urljoin`) -/

/-- Python `uses_relative`. -/
def usesRelative : List (List Char) :=
  ["", "ftp", "http", "gopher", "nntp", "imap", "wais", "file", "https", "shttp",
   "mms", "prospero", "rtsp", "rtspu", "sftp", "svn", "svn+ssh", "ws", "wss"].map String.data

/-- Python `uses_netloc`. -/
def usesNetloc : List (List Char) :=
  ["", "ftp", "http", "gopher", "nntp", "telnet", "imap", "wais", "file", "mms",
   "https", "shttp", "snews", "prospero", "rtsp", "rtspu", "rsync", "svn",
   "svn+ssh", "sftp", "nfs", "git", "git+ssh", "ws", "wss", "itms-services"].map String.data

/-- Python `str.split('/')` (the empty string yields one empty field). -/
def splitOnSlash : List Char → List (List Char)
  | [] => [[]]
  | c :: rest =>
    match splitOnSlash rest with
    | [] => [[c]]
    | s :: ss => if c = '/' then [] :: s :: ss else (c :: s) :: ss

/-- `segments[1:-1] = filter(None, segments[1:-1])`: drop empty fields from
every position except the first and the last. -/
def filterMidAux : List (List Char) → List (List Char)
  | [] => []
  | [z] => [z]
  | x :: xs => if x = [] then filterMidAux xs else x :: filterMidAux xs

/-- See `filterMidAux`; keeps the head untouched. -/
def filterMid : List (List Char) → List (List Char)
  | [] => []
  | [a] => [a]
  | a :: rest => a :: filterMidAux rest

/-- The `..` / `.` resolution loop of `urljoin`, with the accumulator kept
reversed so that `resolved_path.pop()` is `List.tail`. -/
def resolveSegs (acc : List (List Char)) : List (List Char) → List (List Char)
  | [] => acc.reverse
  | seg :: rest =>
    if seg = ['.', '.'] then resolveSegs acc.tail rest
    else if seg = ['.'] then resolveSegs acc rest
    else resolveSegs (seg :: acc) rest

/-- Model of Python `urljoin(base, url)`. -/
def urljoinL (base url : List Char) : List Char :=
  if base = [] then url
  else if url = [] then base
  else
    let b := parseURL base
    let u0 := parseURL url
    let u := if u0.scheme = [] then { u0 with scheme := b.scheme } else u0
    if u.scheme ≠ b.scheme ∨ u.scheme ∉ usesRelative then url
    else if u.scheme ∈ usesNetloc ∧ u.netloc ≠ [] then unparseURL u
    else
      let netloc := if u.scheme ∈ usesNetloc then b.netloc else u.netloc
      if u.path = [] then
        unparseURL { u with netloc := netloc, path := b.path,
                            query := if u.query = [] then b.query else u.query }
      else
        let baseParts0 := splitOnSlash b.path
        let baseParts := if baseParts0.getLast? ≠ some [] then baseParts0.dropLast else baseParts0
        let segments :=
          if u.path.head? = some '/' then splitOnSlash u.path
          else filterMid (baseParts ++ splitOnSlash u.path)
        let resolved0 := resolveSegs [] segments
        let resolved :=
          if segments.getLast? = some ['.'] ∨ segments.getLast? = some ['.', '.']
          then resolved0 ++ [[]] else resolved0
        let joined := List.intercalate ['/'] resolved
        unparseURL { u with netloc := netloc, path := if joined = [] then ['/'] else joined }

example : (⟨urljoinL "https://example.com".data "/about".data⟩ : String)
    = "https://example.com/about" := by decide

example : (⟨urljoinL "https://example.com/a/b".data "c/d".data⟩ : String)
    = "https://example.com/a/c/d" := by decide

example : (⟨urljoinL "https://example.com/a".data "https://other.com/x".data⟩ : String)
    = "https://other.com/x" := by decide

example : (⟨urljoinL "https://example.com/a".data "ftp://example.com/x".data⟩ : String)
    = "ftp://example.com/x" := by decide

example : (⟨urljoinL "https://example.com/a/b/".data "../c".data⟩ : String)
    = "https://example.com/a/c" := by decide

/-! ## The two link-extraction paths (src/src/crawler/crawler.py) -/

/-- Insert into a discovery-ordered duplicate-free list; Python collects
into a `set`, whose iteration order is abstracted here. -/
def insertUnique (x : String) (l : List String) : List String :=
  if x ∈ l then l else l ++ [x]

/-- Body of the `Crawler.same_domain_links` loop for one `href`:
defragment, reject empty and `#`/`javascript:`/`mailto:`/`tel:` links,
resolve against the base, canonicalize, and keep the result only when its
netloc equals the base netloc exactly. Returns `none` when dropped. -/
def htmlKeep (base : String) (a : String) : Option String :=
  let href : String := ⟨urldefragL a.data⟩
  if href = "" ∨ "#".data.isPrefixOf href.data ∨ "javascript:".data.isPrefixOf href.data
     ∨ "mailto:".data.isPrefixOf href.data ∨ "tel:".data.isPrefixOf href.data
  then none
  else
    let c := canonicalL (urljoinL base.data href.data)
    if (parseURL c).netloc = (parseURL base.data).netloc then some ⟨c⟩ else none

/-- `Crawler.same_domain_links`, modelled from the extracted `href`
attributes onward (BeautifulSoup's HTML parsing is abstracted to the
supplied href list). -/
def sameDomainLinksHrefs (base : String) (hrefs : List String) : List String :=
  hrefs.foldl (fun links a =>
    match htmlKeep base a with
    | some c => insertUnique c links
    | none => links) []

/-- Body of the Firecrawl-links loop in `Crawler.process_page` for one
link: reject non-crawlable URLs, canonicalize, keep when
`is_same_domain(canonical_link, page_url)`. -/
def firecrawlKeep (pageUrl : String) (link : String) : Option String :=
  if !isCrawlableUrl link then none
  else
    let cl := canonical link
    if isSameDomain cl pageUrl then some cl else none

/-- The Firecrawl link filter of `Crawler.process_page`. -/
def firecrawlLinks (pageUrl : String) (links : List String) : List String :=
  links.foldl (fun acc link =>
    match firecrawlKeep pageUrl link with
    | some cl => acc ++ [cl]
    | none => acc) []

example : sameDomainLinksHrefs "https://example.com"
    ["/about", "https://example.com/contact", "https://other.com", "javascript:void(0)"]
    = ["https://example.com/about", "https://example.com/contact"] := by decide

example : sameDomainLinksHrefs "https://example.com" ["https://www.example.com/x"] = [] := by
  decide

example : sameDomainLinksHrefs "https://example.com" ["ftp://example.com/x"]
    = ["ftp://example.com/x"] := by decide

example : firecrawlLinks "https://web.com/x" ["https://eb.com/y"] = ["https://eb.com/y"] := by
  decide

/-! ## List lemmas for the URL model -/

theorem splitFirst_not_mem {c : Char} {l : List Char} (h : c ∉ l) :
    splitFirst c l = (l, none) := by
  induction l with
  | nil => rfl
  | cons x xs ih =>
    simp only [List.mem_cons, not_or] at h
    simp [splitFirst, Ne.symm h.1, ih h.2]

theorem splitFirst_append_cons {c : Char} {a b : List Char} (h : c ∉ a) :
    splitFirst c (a ++ c :: b) = (a, some b) := by
  induction a with
  | nil => simp [splitFirst]
  | cons x xs ih =>
    simp only [List.mem_cons, not_or] at h
    simp [splitFirst, Ne.symm h.1, ih h.2]

theorem takeWhile_append_all {p : Char → Bool} {a : List Char} (b : List Char)
    (h : ∀ c ∈ a, p c = true) :
    (a ++ b).takeWhile p = a ++ b.takeWhile p := by
  induction a with
  | nil => rfl
  | cons x xs ih =>
    have hx : p x = true := h x (List.mem_cons_self x xs)
    simp only [List.cons_append, List.takeWhile_cons, hx]
    simp [ih fun c hc => h c (List.mem_cons_of_mem x hc)]

theorem dropWhile_append_all {p : Char → Bool} {a : List Char} (b : List Char)
    (h : ∀ c ∈ a, p c = true) :
    (a ++ b).dropWhile p = b.dropWhile p := by
  induction a with
  | nil => rfl
  | cons x xs ih =>
    have hx : p x = true := h x (List.mem_cons_self x xs)
    simp only [List.cons_append, List.dropWhile_cons, hx]
    simp [ih fun c hc => h c (List.mem_cons_of_mem x hc)]

theorem getLast?_cons_ne {x : Char} {xs : List Char} (h : xs ≠ []) :
    (x :: xs).getLast? = xs.getLast? := by
  cases xs with
  | nil => exact absurd rfl h
  | cons y ys => simp [List.getLast?]

theorem rstripSlash_spec (l : List Char) :
    ∃ t, l = rstripSlash l ++ t ∧ ∀ c ∈ t, c = '/' := by
  induction l with
  | nil => exact ⟨[], rfl, by simp⟩
  | cons x xs ih =>
    obtain ⟨t, ht, hall⟩ := ih
    by_cases hr : rstripSlash xs = []
    · by_cases hx : x = '/'
      · refine ⟨x :: xs, ?_, ?_⟩
        · simp [rstripSlash, hr, hx]
        · intro c hc
          rcases List.mem_cons.mp hc with h1 | h2
          · exact h1.trans hx
          · rw [ht, hr] at h2; exact hall c h2
      · refine ⟨t, ?_, hall⟩
        simp only [rstripSlash, hr, if_pos rfl, if_neg hx]
        rw [ht, hr]; simp
    · refine ⟨t, ?_, hall⟩
      simp only [rstripSlash]
      rw [if_neg hr, List.cons_append, ← ht]

theorem rstripSlash_last_not_slash (l : List Char) :
    rstripSlash l = [] ∨ (rstripSlash l).getLast? ≠ some '/' := by
  induction l with
  | nil => exact Or.inl rfl
  | cons x xs ih =>
    by_cases hr : rstripSlash xs = []
    · by_cases hx : x = '/'
      · left; simp [rstripSlash, hr, hx]
      · right; simp [rstripSlash, hr, hx, List.getLast?]
    · rcases ih with h | h
      · exact absurd h hr
      · right
        simp only [rstripSlash]
        rw [if_neg hr, getLast?_cons_ne hr]
        exact h

theorem rstripSlash_eq_self {l : List Char} (h : l.getLast? ≠ some '/') :
    rstripSlash l = l := by
  induction l with
  | nil => rfl
  | cons x xs ih =>
    by_cases hxs : xs = []
    · subst hxs
      have : x ≠ '/' := by
        intro hx
        exact h (by rw [hx]; rfl)
      simp [rstripSlash, this]
    · rw [getLast?_cons_ne hxs] at h
      have hxs' : rstripSlash xs = xs := ih h
      have hne : rstripSlash xs ≠ [] := by rw [hxs']; exact hxs
      simp only [rstripSlash]
      rw [if_neg hne, hxs']

theorem rstripSlash_idem (l : List Char) :
    rstripSlash (rstripSlash l) = rstripSlash l := by
  rcases rstripSlash_last_not_slash l with h | h
  · rw [h]; rfl
  · exact rstripSlash_eq_self h

theorem rstripSlash_append (a b : List Char) :
    rstripSlash (a ++ b) =
      if rstripSlash b = [] then rstripSlash a else a ++ rstripSlash b := by
  induction a with
  | nil => by_cases h : rstripSlash b = [] <;> simp [h, rstripSlash]
  | cons x xs ih =>
    by_cases h : rstripSlash b = []
    · rw [if_pos h] at ih ⊢
      show rstripSlash (x :: (xs ++ b)) = rstripSlash (x :: xs)
      simp only [rstripSlash]
      rw [ih]
    · rw [if_neg h] at ih ⊢
      have hne : rstripSlash (xs ++ b) ≠ [] := by
        rw [ih]
        intro hcontra
        exact h (List.append_eq_nil.mp hcontra).2
      show rstripSlash (x :: (xs ++ b)) = (x :: xs) ++ rstripSlash b
      simp only [rstripSlash]
      rw [if_neg hne, ih, List.cons_append]

theorem mem_rstripSlash {c : Char} {l : List Char} (h : c ∈ rstripSlash l) : c ∈ l := by
  obtain ⟨t, ht, _⟩ := rstripSlash_spec l
  rw [ht]; exact List.mem_append_left t h

theorem head?_rstripSlash {l : List Char} (h : rstripSlash l ≠ []) :
    (rstripSlash l).head? = l.head? := by
  obtain ⟨t, ht, _⟩ := rstripSlash_spec l
  conv_rhs => rw [ht]
  match hr : rstripSlash l with
  | [] => exact absurd hr h
  | c :: cs => simp

/-! ## Character facts about `Char.toLower` -/

theorem toNat_ofNat_valid {m : Nat} (h1 : 97 ≤ m) (h2 : m ≤ 122) :
    (Char.ofNat m).toNat = m := by
  have hv : m.isValidChar := Or.inl (by omega)
  rw [Char.ofNat, dif_pos hv]
  simp [Char.ofNatAux, Char.toNat, UInt32.toNat, BitVec.toNat_ofNatLt]

theorem toLower_eq (c : Char) : Char.toLower c = c ∨
    (65 ≤ c.toNat ∧ c.toNat ≤ 90 ∧ (Char.toLower c).toNat = c.toNat + 32) := by
  by_cases h : c.toNat ≥ 65 ∧ c.toNat ≤ 90
  · right
    refine ⟨h.1, h.2, ?_⟩
    simp only [Char.toLower]
    rw [if_pos h]
    exact toNat_ofNat_valid (by omega) (by omega)
  · left
    simp only [Char.toLower]
    rw [if_neg h]

theorem toLower_eq_self_of_not_upper {c : Char} (h : ¬(65 ≤ c.toNat ∧ c.toNat ≤ 90)) :
    Char.toLower c = c := by
  simp only [Char.toLower]
  rw [if_neg h]

theorem toLower_toLower (c : Char) :
    Char.toLower (Char.toLower c) = Char.toLower c := by
  rcases toLower_eq c with h | ⟨h1, h2, h3⟩
  · rw [h, h]
  · exact toLower_eq_self_of_not_upper (by omega)

theorem char_ne_of_toNat_ne {c d : Char} (h : c.toNat ≠ d.toNat) : c ≠ d :=
  fun he => h (by rw [he])

theorem netlocEnd_eq_false_of_bounds {c : Char} (h1 : 65 ≤ c.toNat) (h2 : c.toNat ≤ 122) :
    netlocEnd c = false := by
  have hn1 : c ≠ '/' := by
    intro he
    have hv : c.toNat = 47 := by rw [he]; decide
    omega
  have hn2 : c ≠ '?' := by
    intro he
    have hv : c.toNat = 63 := by rw [he]; decide
    omega
  have hn3 : c ≠ '#' := by
    intro he
    have hv : c.toNat = 35 := by rw [he]; decide
    omega
  simp [netlocEnd, hn1, hn2, hn3]

theorem netlocEnd_toLower (c : Char) : netlocEnd (Char.toLower c) = netlocEnd c := by
  rcases toLower_eq c with h | ⟨h1, h2, h3⟩
  · rw [h]
  · rw [@netlocEnd_eq_false_of_bounds (Char.toLower c) (by omega) (by omega),
        netlocEnd_eq_false_of_bounds h1 (by omega)]

theorem lower_idem (l : List Char) : lower (lower l) = lower l := by
  simp only [lower, List.map_map]
  exact List.map_congr_left fun c _ => toLower_toLower c

theorem lower_ne_nil {l : List Char} (h : l ≠ []) : lower l ≠ [] := by
  simp [lower, h]

theorem lower_all_not_netlocEnd {l : List Char}
    (h : l.all (fun c => !netlocEnd c) = true) :
    (lower l).all (fun c => !netlocEnd c) = true := by
  rw [List.all_eq_true] at h ⊢
  intro c hc
  rw [lower, List.mem_map] at hc
  obtain ⟨d, hd, rfl⟩ := hc
  rw [netlocEnd_toLower]
  exact h d hd

/-! ## Well-formed absolute URLs -/

/-- An absolute URL given by its components; `render` serializes it.  The
original claim quantifies over "every valid URL", formalized as the
rendering of a well-formed `ValidURL`. -/
structure ValidURL where
  scheme : List Char
  host : List Char
  path : List Char
  query : Option (List Char)
  fragment : Option (List Char)
deriving DecidableEq, Repr

/-- The `?query` portion of the serialization. -/
def ValidURL.qpart (v : ValidURL) : List Char :=
  match v.query with | some q => '?' :: q | none => []

/-- The `#fragment` portion of the serialization. -/
def ValidURL.fpart (v : ValidURL) : List Char :=
  match v.fragment with | some f => '#' :: f | none => []

/-- Serialize the URL: `scheme://host path ?query #fragment`. -/
def ValidURL.render (v : ValidURL) : List Char :=
  v.scheme ++ ':' :: '/' :: '/' :: (v.host ++ (v.path ++ (v.qpart ++ v.fpart)))

/-- Helper for stating constraints on an optional component. -/
def optAll (p : List Char → Bool) : Option (List Char) → Bool
  | none => true
  | some q => p q

/-- Well-formedness: a valid lower-case scheme, a nonempty host free of
`/ ? #`, a path free of `? #` that is empty or starts with `/`, and a
query free of `#`. -/
def ValidURL.WF (v : ValidURL) : Prop :=
  isValidScheme v.scheme = true ∧
  lower v.scheme = v.scheme ∧
  v.host ≠ [] ∧
  v.host.all (fun c => !netlocEnd c) = true ∧
  v.path.all (fun c => !(c = '?' || c = '#')) = true ∧
  (v.path = [] ∨ v.path.head? = some '/') ∧
  optAll (fun q => q.all (fun c => !(c = '#'))) v.query = true

instance (v : ValidURL) : Decidable v.WF := by
  unfold ValidURL.WF
  infer_instance

theorem isValidScheme_no_colon {s : List Char} (h : isValidScheme s = true) : ':' ∉ s := by
  intro hm
  cases s with
  | nil => simp [isValidScheme] at h
  | cons c cs =>
    simp only [isValidScheme, Bool.and_eq_true] at h
    have hc := List.all_eq_true.mp h.2 ':' hm
    exact absurd hc (by decide)

theorem isValidScheme_ne_nil {s : List Char} (h : isValidScheme s = true) : s ≠ [] := by
  intro he
  rw [he] at h
  simp [isValidScheme] at h

theorem splitScheme_colon {s rest : List Char} (hs : isValidScheme s = true)
    (hls : lower s = s) : splitScheme (s ++ ':' :: rest) = (s, rest) := by
  unfold splitScheme
  rw [splitFirst_append_cons (isValidScheme_no_colon hs)]
  simp [hs, hls]

theorem splitNetloc_hosttail {host tail : List Char}
    (hha : host.all (fun c => !netlocEnd c) = true)
    (htail : tail = [] ∨ ∃ c t, tail = c :: t ∧ netlocEnd c = true) :
    splitNetloc ('/' :: '/' :: (host ++ tail)) = (host, tail) := by
  have hall : ∀ c ∈ host, (fun c => !netlocEnd c) c = true := List.all_eq_true.mp hha
  have htake : (host ++ tail).takeWhile (fun c => !netlocEnd c) = host ++ tail.takeWhile (fun c => !netlocEnd c) :=
    takeWhile_append_all tail hall
  have hdrop : (host ++ tail).dropWhile (fun c => !netlocEnd c) = tail.dropWhile (fun c => !netlocEnd c) :=
    dropWhile_append_all tail hall
  have htail2 : tail.takeWhile (fun c => !netlocEnd c) = [] ∧
      tail.dropWhile (fun c => !netlocEnd c) = tail := by
    rcases htail with h | ⟨c, t, rfl, hc⟩
    · rw [h]; exact ⟨rfl, rfl⟩
    · constructor
      · rw [List.takeWhile_cons, hc]; rfl
      · rw [List.dropWhile_cons, hc]; rfl
  simp only [splitNetloc]
  rw [htake, hdrop, htail2.1, htail2.2, List.append_nil]

theorem parseURL_render (v : ValidURL) (h : v.WF) :
    parseURL v.render = ⟨v.scheme, v.host, v.path, v.query.getD [], v.fragment.getD []⟩ := by
  obtain ⟨hs, hls, hh, hha, hpa, hps, hq⟩ := h
  have pathQ : '?' ∉ v.path := by
    intro hm
    have := List.all_eq_true.mp hpa _ hm
    simp at this
  have pathH : '#' ∉ v.path := by
    intro hm
    have := List.all_eq_true.mp hpa _ hm
    simp at this
  have qpartH : '#' ∉ v.qpart := by
    intro hm
    cases hq' : v.query with
    | none => rw [ValidURL.qpart, hq'] at hm; simp at hm
    | some q =>
      rw [ValidURL.qpart, hq'] at hm
      rcases List.mem_cons.mp hm with h1 | h2
      · exact absurd h1 (by decide)
      · rw [hq'] at hq
        have := List.all_eq_true.mp hq _ h2
        simp at this
  have tailOK : v.path ++ (v.qpart ++ v.fpart) = [] ∨
      ∃ c t, v.path ++ (v.qpart ++ v.fpart) = c :: t ∧ netlocEnd c = true := by
    cases hp : v.path with
    | cons c t =>
      right
      have : v.path.head? = some '/' := by
        rcases hps with h1 | h1
        · rw [h1] at hp; exact absurd hp (by simp)
        · exact h1
      rw [hp] at this
      simp only [List.head?] at this
      refine ⟨'/', t ++ (v.qpart ++ v.fpart), ?_, by decide⟩
      rw [List.cons_append, Option.some.injEq] at *
      rw [this]
    | nil =>
      cases hq' : v.query with
      | some q =>
        right
        refine ⟨'?', q ++ v.fpart, ?_, by decide⟩
        simp [ValidURL.qpart, hq']
      | none =>
        cases hf : v.fragment with
        | some f =>
          right
          refine ⟨'#', f, ?_, by decide⟩
          simp [ValidURL.qpart, ValidURL.fpart, hq', hf]
        | none =>
          left
          simp [ValidURL.qpart, ValidURL.fpart, hq', hf]
  unfold parseURL ValidURL.render
  rw [splitScheme_colon hs hls]
  simp only
  rw [splitNetloc_hosttail hha tailOK]
  simp only
  have hfragsplit : splitFirst '#' (v.path ++ (v.qpart ++ v.fpart))
      = (v.path ++ v.qpart, match v.fragment with | some f => some f | none => none) := by
    cases hf : v.fragment with
    | some f =>
      have : v.path ++ (v.qpart ++ v.fpart) = (v.path ++ v.qpart) ++ '#' :: f := by
        rw [ValidURL.fpart, hf]
        simp [List.append_assoc]
      rw [this]
      exact splitFirst_append_cons (by
        intro hm
        rcases List.mem_append.mp hm with h1 | h2
        · exact pathH h1
        · exact qpartH h2)
    | none =>
      have : v.fpart = [] := by rw [ValidURL.fpart, hf]
      rw [this, List.append_nil]
      exact splitFirst_not_mem (by
        intro hm
        rcases List.mem_append.mp hm with h1 | h2
        · exact pathH h1
        · exact qpartH h2)
  rw [hfragsplit]
  simp only
  have hquerysplit : splitFirst '?' (v.path ++ v.qpart)
      = (v.path, match v.query with | some q => some q | none => none) := by
    cases hq' : v.query with
    | some q =>
      have : v.path ++ v.qpart = v.path ++ '?' :: q := by rw [ValidURL.qpart, hq']
      rw [this]
      exact splitFirst_append_cons pathQ
    | none =>
      have : v.qpart = [] := by rw [ValidURL.qpart, hq']
      rw [this, List.append_nil]
      exact splitFirst_not_mem pathQ
  rw [hquerysplit]
  cases v.query <;> cases v.fragment <;> rfl

/-! ## Characterizing `canonical` on well-formed URLs -/

/-- The canonical serialization shape `scheme://host path [?query]`. -/
def assemble (sch host path query : List Char) : List Char :=
  sch ++ ':' :: '/' :: '/' :: (host ++ path ++ (if query = [] then [] else '?' :: query))

theorem rstripSlash_no_slash {l : List Char} (h : '/' ∉ l) : rstripSlash l = l := by
  induction l with
  | nil => rfl
  | cons x xs ih =>
    simp only [List.mem_cons, not_or] at h
    have hxs := ih h.2
    by_cases he : xs = []
    · subst he
      simp [rstripSlash, Ne.symm h.1]
    · have hne : rstripSlash xs ≠ [] := by rw [hxs]; exact he
      simp only [rstripSlash]
      rw [if_neg hne, hxs]

theorem no_slash_of_all_not_netlocEnd {l : List Char}
    (h : l.all (fun c => !netlocEnd c) = true) : '/' ∉ l := by
  intro hm
  have := List.all_eq_true.mp h _ hm
  simp [netlocEnd] at this

theorem unparse_eq_assemble {sch host path query : List Char} (hsch : sch ≠ [])
    (hh : host ≠ []) (hp : path = [] ∨ path.head? = some '/') :
    unparseURL ⟨sch, host, path, query, []⟩ = assemble sch host path query := by
  have hinner : (if path ≠ [] ∧ path.head? ≠ some '/' then '/' :: path else path) = path := by
    rcases hp with h1 | h1
    · rw [if_neg]; intro hc; exact hc.1 h1
    · rw [if_neg]; intro hc; exact hc.2 h1
  simp only [unparseURL, assemble]
  rw [if_pos (Or.inl hh : host ≠ [] ∨ path.take 2 = ['/', '/'])]
  rw [hinner, if_pos hsch]
  rw [if_neg (by simp : ¬([] : List Char) ≠ [])]
  by_cases hqe : query = []
  · rw [if_neg (by simp [hqe]), hqe]
    simp
  · rw [if_pos hqe, if_neg hqe]
    simp [List.append_assoc]

theorem rstrip_assemble {sch host path query : List Char}
    (hh : host ≠ []) (hnoslash : '/' ∉ host)
    (hq : query = [] ∨ rstripSlash query ≠ []) :
    rstripSlash (assemble sch host path query) =
      if query = [] then assemble sch host (rstripSlash path) []
      else assemble sch host path (rstripSlash query) := by
  have hhost : rstripSlash host = host := rstripSlash_no_slash hnoslash
  have heq2 : ∀ p : List Char, assemble sch host p []
      = (sch ++ [':', '/', '/']) ++ (host ++ p) := by
    intro p; simp [assemble]
  by_cases hqe : query = []
  · rw [if_pos hqe, hqe]
    rw [heq2 path, heq2 (rstripSlash path)]
    have e1 : rstripSlash (host ++ path) = host ++ rstripSlash path := by
      rw [rstripSlash_append]
      by_cases hpe : rstripSlash path = []
      · rw [if_pos hpe, hpe, List.append_nil, hhost]
      · rw [if_neg hpe]
    have e1ne : host ++ rstripSlash path ≠ [] := by
      intro hc; exact hh (List.append_eq_nil.mp hc).1
    rw [rstripSlash_append (sch ++ [':', '/', '/']) (host ++ path), e1, if_neg e1ne]
  · rw [if_neg hqe]
    have hq' : rstripSlash query ≠ [] := by
      rcases hq with h1 | h1
      · exact absurd h1 hqe
      · exact h1
    have heq3 : ∀ qq : List Char, qq ≠ [] → assemble sch host path qq
        = ((sch ++ [':', '/', '/']) ++ (host ++ path ++ ['?'])) ++ qq := by
      intro qq hqq
      simp [assemble, hqq, List.append_assoc]
    rw [heq3 query hqe, heq3 (rstripSlash query) hq']
    rw [rstripSlash_append ((sch ++ [':', '/', '/']) ++ (host ++ path ++ ['?'])) query,
        if_neg hq']

theorem canonicalL_render (v : ValidURL) (h : v.WF)
    (hq : v.query.getD [] = [] ∨ rstripSlash (v.query.getD []) ≠ []) :
    canonicalL v.render =
      if v.query.getD [] = [] then assemble v.scheme (lower v.host) (rstripSlash v.path) []
      else assemble v.scheme (lower v.host) v.path (rstripSlash (v.query.getD [])) := by
  obtain ⟨hs, hls, hh, hha, hpa, hps, hq2⟩ := h
  unfold canonicalL
  rw [parseURL_render v ⟨hs, hls, hh, hha, hpa, hps, hq2⟩]
  show rstripSlash (unparseURL ⟨v.scheme, lower v.host, v.path, v.query.getD [], []⟩) = _
  rw [unparse_eq_assemble (isValidScheme_ne_nil hs) (lower_ne_nil hh) hps]
  exact rstrip_assemble (lower_ne_nil hh)
    (no_slash_of_all_not_netlocEnd (lower_all_not_netlocEnd hha)) hq

theorem canonicalL_render_none (sch host path : List Char)
    (hwf : (ValidURL.mk sch host path none none).WF) :
    canonicalL (ValidURL.mk sch host path none none).render
      = assemble sch (lower host) (rstripSlash path) [] := by
  have hcond : ((ValidURL.mk sch host path none none).query.getD [] : List Char) = [] := rfl
  rw [canonicalL_render _ hwf (Or.inl hcond), if_pos hcond]

theorem canonicalL_render_some (sch host path q : List Char)
    (hwf : (ValidURL.mk sch host path (some q) none).WF)
    (hqne : q ≠ []) (hqs : rstripSlash q ≠ []) :
    canonicalL (ValidURL.mk sch host path (some q) none).render
      = assemble sch (lower host) path (rstripSlash q) := by
  have hcond : ¬ (((ValidURL.mk sch host path (some q) none).query.getD [] : List Char) = []) :=
    hqne
  have hqok : ((ValidURL.mk sch host path (some q) none).query.getD [] : List Char) = [] ∨
      rstripSlash ((ValidURL.mk sch host path (some q) none).query.getD []) ≠ [] := Or.inr hqs
  rw [canonicalL_render _ hwf hqok, if_neg hcond]
  rfl

theorem canonicalL_idem_of_WF (v : ValidURL) (h : v.WF)
    (hq : v.query.getD [] = [] ∨ rstripSlash (v.query.getD []) ≠ []) :
    canonicalL (canonicalL v.render) = canonicalL v.render := by
  obtain ⟨hs, hls, hh, hha, hpa, hps, hq2⟩ := h
  rw [canonicalL_render v ⟨hs, hls, hh, hha, hpa, hps, hq2⟩ hq]
  by_cases hqe : v.query.getD [] = []
  · rw [if_pos hqe]
    have hrv : assemble v.scheme (lower v.host) (rstripSlash v.path) []
        = (ValidURL.mk v.scheme (lower v.host) (rstripSlash v.path) none none).render := by
      simp [ValidURL.render, ValidURL.qpart, ValidURL.fpart, assemble]
    have pathall1 : (rstripSlash v.path).all (fun c => !(c = '?' || c = '#')) = true := by
      rw [List.all_eq_true]
      intro c hc
      exact List.all_eq_true.mp hpa c (mem_rstripSlash hc)
    have pathshape1 : rstripSlash v.path = [] ∨ (rstripSlash v.path).head? = some '/' := by
      by_cases hrp : rstripSlash v.path = []
      · exact Or.inl hrp
      · right
        rw [head?_rstripSlash hrp]
        rcases hps with h1 | h1
        · rw [h1] at hrp
          exact absurd rfl hrp
        · exact h1
    have hwf1 : (ValidURL.mk v.scheme (lower v.host) (rstripSlash v.path) none none).WF :=
      ⟨hs, hls, lower_ne_nil hh, lower_all_not_netlocEnd hha, pathall1, pathshape1, rfl⟩
    rw [hrv, canonicalL_render_none _ _ _ hwf1, lower_idem, rstripSlash_idem]
    exact hrv
  · rw [if_neg hqe]
    have hq' : rstripSlash (v.query.getD []) ≠ [] := by
      rcases hq with h1 | h1
      · exact absurd h1 hqe
      · exact h1
    obtain ⟨q, hqeq⟩ : ∃ q, v.query = some q := by
      cases hv : v.query with
      | none => rw [hv] at hqe; exact absurd rfl hqe
      | some q => exact ⟨q, rfl⟩
    have hrv : assemble v.scheme (lower v.host) v.path (rstripSlash (v.query.getD []))
        = (ValidURL.mk v.scheme (lower v.host) v.path
            (some (rstripSlash (v.query.getD []))) none).render := by
      simp [ValidURL.render, ValidURL.qpart, ValidURL.fpart, assemble, hq']
    have queryall1 : optAll (fun qq => qq.all (fun c => !(c = '#')))
        (some (rstripSlash (v.query.getD []))) = true := by
      show (rstripSlash (v.query.getD [])).all (fun c => !(c = '#')) = true
      rw [List.all_eq_true]
      intro c hc
      have hcq : c ∈ v.query.getD [] := mem_rstripSlash hc
      rw [hqeq] at hcq hq2
      exact List.all_eq_true.mp hq2 c hcq
    have hwf2 : (ValidURL.mk v.scheme (lower v.host) v.path
        (some (rstripSlash (v.query.getD []))) none).WF :=
      ⟨hs, hls, lower_ne_nil hh, lower_all_not_netlocEnd hha, hpa, hps, queryall1⟩
    rw [hrv, canonicalL_render_some _ _ _ _ hwf2 hq'
          (by rw [rstripSlash_idem]; exact hq'),
        lower_idem, rstripSlash_idem]
    exact hrv

/-! ## Whitespace handling (Python `str.strip()` and `re.sub(r"\s+", " ", ...)`) -/

/-- The ASCII whitespace characters matched by Python `\s` and stripped
by `str.strip()` (Unicode whitespace is not needed here). -/
def isSpace (c : Char) : Bool :=
  c = ' ' || c = '\t' || c = '\n' || c = '\r' || c = '\x0b' || c = '\x0c'

/-- Remove trailing whitespace. -/
def rstripWS : List Char → List Char
  | [] => []
  | c :: rest =>
    let r := rstripWS rest
    if r = [] then (if isSpace c then [] else [c]) else c :: r

/-- Remove leading whitespace. -/
def lstripWS (l : List Char) : List Char := l.dropWhile isSpace

/-- Python `str.strip()`. -/
def stripWS (l : List Char) : List Char := rstripWS (lstripWS l)

/-- One pass of `re.sub(r"\s+", " ", ...)`: the flag records whether the
previous character was whitespace (so the run is already represented). -/
def collapseAux : Bool → List Char → List Char
  | _, [] => []
  | prev, c :: rest =>
    if isSpace c then
      if prev then collapseAux true rest else ' ' :: collapseAux true rest
    else c :: collapseAux false rest

/-- `re.sub(r"\s+", " ", l)`. -/
def collapseWS (l : List Char) : List Char := collapseAux false l

/-- Maximal whitespace-free runs, accumulator reversed. -/
def wordsAux : List Char → List Char → List (List Char)
  | [], acc => if acc = [] then [] else [acc.reverse]
  | c :: rest, acc =>
    if isSpace c then
      (if acc = [] then wordsAux rest [] else acc.reverse :: wordsAux rest [])
    else wordsAux rest (c :: acc)

/-- The whitespace-separated words of a string. -/
def wordsOf (l : List Char) : List (List Char) := wordsAux l []

/-- Python `" ".join`. -/
def joinSpace : List (List Char) → List Char
  | [] => []
  | [x] => x
  | x :: xs => x ++ ' ' :: joinSpace xs

/-- Joining two already-normalized strings with a single space,
dropping an empty side. -/
def joinSp2 (a b : List Char) : List Char :=
  if a = [] then b else if b = [] then a else a ++ ' ' :: b

/-- The whitespace normal form: collapse runs, strip the ends. -/
def nf (l : List Char) : List Char := joinSpace (wordsOf l)

theorem rstripWS_append (a b : List Char) :
    rstripWS (a ++ b) = if rstripWS b = [] then rstripWS a else a ++ rstripWS b := by
  induction a with
  | nil => by_cases h : rstripWS b = [] <;> simp [h, rstripWS]
  | cons x xs ih =>
    by_cases h : rstripWS b = []
    · rw [if_pos h] at ih ⊢
      show rstripWS (x :: (xs ++ b)) = rstripWS (x :: xs)
      simp only [rstripWS]
      rw [ih]
    · rw [if_neg h] at ih ⊢
      have hne : rstripWS (xs ++ b) ≠ [] := by
        rw [ih]
        intro hcontra
        exact h (List.append_eq_nil.mp hcontra).2
      show rstripWS (x :: (xs ++ b)) = (x :: xs) ++ rstripWS b
      simp only [rstripWS]
      rw [if_neg hne, ih, List.cons_append]

theorem rstripWS_no_space {l : List Char} (h : ∀ c ∈ l, isSpace c = false) :
    rstripWS l = l := by
  induction l with
  | nil => rfl
  | cons x xs ih =>
    have hx : isSpace x = false := h x (List.mem_cons_self x xs)
    have hxs := ih fun c hc => h c (List.mem_cons_of_mem x hc)
    by_cases he : xs = []
    · subst he
      simp [rstripWS, hx]
    · have hne : rstripWS xs ≠ [] := by rw [hxs]; exact he
      simp only [rstripWS]
      rw [if_neg hne, hxs]

theorem rstripWS_space_cons (X : List Char) :
    rstripWS (' ' :: X) = if rstripWS X = [] then [] else ' ' :: rstripWS X := by
  by_cases h : rstripWS X = []
  · simp [rstripWS, h, isSpace]
  · simp [rstripWS, h]

theorem joinSpace_cons (a : List Char) (W : List (List Char)) :
    joinSpace (a :: W) = a ++ (if W = [] then [] else ' ' :: joinSpace W) := by
  cases W with
  | nil => simp [joinSpace]
  | cons w ws => simp [joinSpace]

theorem wordsAux_ne_nil (l : List Char) : ∀ acc w, w ∈ wordsAux l acc → w ≠ [] := by
  induction l with
  | nil =>
    intro acc w hw
    by_cases he : acc = []
    · rw [wordsAux, if_pos he] at hw
      simp at hw
    · rw [wordsAux, if_neg he] at hw
      rcases List.mem_singleton.mp hw with rfl
      simp [he]
  | cons c rest ih =>
    intro acc w hw
    by_cases hsp : isSpace c = true
    · by_cases he : acc = []
      · rw [wordsAux, if_pos hsp, if_pos he] at hw
        exact ih [] w hw
      · rw [wordsAux, if_pos hsp, if_neg he] at hw
        rcases List.mem_cons.mp hw with rfl | hw2
        · simp [he]
        · exact ih [] w hw2
    · rw [wordsAux, if_neg hsp] at hw
      exact ih (c :: acc) w hw

theorem joinSpace_ne_nil {W : List (List Char)} (hW : ∀ w ∈ W, w ≠ []) (hne : W ≠ []) :
    joinSpace W ≠ [] := by
  cases W with
  | nil => exact absurd rfl hne
  | cons w ws =>
    rw [joinSpace_cons]
    intro hc
    rcases List.append_eq_nil.mp hc with ⟨h1, _⟩
    exact hW w (List.mem_cons_self w ws) h1

/-- The joint characterization of collapse-and-right-strip against the
word decomposition, generalized over the in-progress word. -/
theorem rstripWS_collapseAux (l : List Char) : ∀ acc : List Char,
    (∀ c ∈ acc, isSpace c = false) →
    rstripWS (acc.reverse ++ collapseAux acc.isEmpty l) = joinSpace (wordsAux l acc) := by
  induction l with
  | nil =>
    intro acc hacc
    show rstripWS (acc.reverse ++ []) = joinSpace (wordsAux [] acc)
    rw [List.append_nil]
    have hrev : rstripWS acc.reverse = acc.reverse :=
      rstripWS_no_space fun c hc => hacc c (List.mem_reverse.mp hc)
    by_cases he : acc = []
    · subst he
      simp [wordsAux, joinSpace, rstripWS]
    · rw [hrev, wordsAux, if_neg he]
      simp [joinSpace]
  | cons c rest ih =>
    intro acc hacc
    by_cases hsp : isSpace c = true
    · have hihl := ih [] (by simp)
      simp only [List.reverse_nil, List.nil_append, List.isEmpty_nil] at hihl
      by_cases he : acc = []
      · subst he
        show rstripWS ([] ++ collapseAux true (c :: rest)) = joinSpace (wordsAux (c :: rest) [])
        have h1 : collapseAux true (c :: rest) = collapseAux true rest := by
          simp [collapseAux, hsp]
        have h2 : wordsAux (c :: rest) [] = wordsAux rest [] := by
          simp [wordsAux, hsp]
        rw [h1, h2, List.nil_append]
        exact hihl
      · have hie : acc.isEmpty = false := by
          cases acc with
          | nil => exact absurd rfl he
          | cons y ys => rfl
        rw [hie]
        have h1 : collapseAux false (c :: rest) = ' ' :: collapseAux true rest := by
          simp [collapseAux, hsp]
        have h2 : wordsAux (c :: rest) acc = acc.reverse :: wordsAux rest [] := by
          simp [wordsAux, hsp, he]
        have hrev : rstripWS acc.reverse = acc.reverse :=
          rstripWS_no_space fun x hx => hacc x (List.mem_reverse.mp hx)
        rw [h1, h2, rstripWS_append, rstripWS_space_cons, joinSpace_cons]
        by_cases hW : wordsAux rest [] = []
        · have hJ : joinSpace (wordsAux rest []) = [] := by rw [hW]; rfl
          rw [hJ] at hihl
          rw [hihl, if_pos rfl, if_pos rfl, if_pos hW, hrev, List.append_nil]
        · have hJ : joinSpace (wordsAux rest []) ≠ [] :=
            joinSpace_ne_nil (fun w hw => wordsAux_ne_nil rest [] w hw) hW
          rw [hihl, if_neg hJ, if_neg (by simp : ¬(' ' :: joinSpace (wordsAux rest []) = [])),
              if_neg hW]
    · have h1 : collapseAux acc.isEmpty (c :: rest) = c :: collapseAux false rest := by
        cases hac : acc.isEmpty <;> simp [collapseAux, hsp]
      have h2 : wordsAux (c :: rest) acc = wordsAux rest (c :: acc) := by
        simp [wordsAux, hsp]
      rw [h1, h2]
      have h3 : acc.reverse ++ c :: collapseAux false rest
          = (c :: acc).reverse ++ collapseAux (c :: acc).isEmpty rest := by
        simp [List.reverse_cons, List.append_assoc]
      rw [h3]
      exact ih (c :: acc) (by
        intro x hx
        rcases List.mem_cons.mp hx with rfl | hx2
        · simpa using hsp
        · exact hacc x hx2)

theorem collapseAux_true_head (m : List Char) : collapseAux true m = [] ∨
    ∃ d ds, collapseAux true m = d :: ds ∧ isSpace d = false := by
  induction m with
  | nil => exact Or.inl rfl
  | cons c rest ih =>
    by_cases hsp : isSpace c = true
    · have : collapseAux true (c :: rest) = collapseAux true rest := by
        simp [collapseAux, hsp]
      rw [this]
      exact ih
    · right
      refine ⟨c, collapseAux false rest, ?_, by simpa using hsp⟩
      simp [collapseAux, hsp]

theorem stripWS_collapseWS (l : List Char) : stripWS (collapseWS l) = nf l := by
  cases l with
  | nil => rfl
  | cons c rest =>
    by_cases hsp : isSpace c = true
    · have h1 : collapseWS (c :: rest) = ' ' :: collapseAux true rest := by
        simp [collapseWS, collapseAux, hsp]
      have h2 : lstripWS (' ' :: collapseAux true rest) = collapseAux true rest := by
        rw [lstripWS, List.dropWhile_cons]
        rw [if_pos (by decide : isSpace ' ' = true)]
        rcases collapseAux_true_head rest with hh | ⟨d, ds, hh, hd⟩
        · rw [hh]; rfl
        · rw [hh, List.dropWhile_cons, if_neg (by simp [hd])]
      rw [stripWS, h1, h2]
      have h3 : rstripWS (collapseAux true rest) = joinSpace (wordsAux rest []) := by
        have := rstripWS_collapseAux rest [] (by simp)
        simpa using this
      rw [h3]
      show joinSpace (wordsAux rest []) = joinSpace (wordsOf (c :: rest))
      rw [wordsOf, wordsAux, if_pos hsp, if_pos rfl]
    · have h1 : collapseWS (c :: rest) = c :: collapseAux false rest := by
        simp [collapseWS, collapseAux, hsp]
      have h2 : lstripWS (c :: collapseAux false rest) = c :: collapseAux false rest := by
        rw [lstripWS, List.dropWhile_cons, if_neg (by simp [hsp])]
      rw [stripWS, h1, h2]
      have h3 : rstripWS (c :: collapseAux false rest) = joinSpace (wordsAux rest [c]) := by
        have := rstripWS_collapseAux rest [c] (by
          intro x hx
          rcases List.mem_singleton.mp hx with rfl
          simpa using hsp)
        simpa using this
      rw [h3]
      show joinSpace (wordsAux rest [c]) = joinSpace (wordsOf (c :: rest))
      rw [wordsOf, wordsAux, if_neg hsp]

theorem wordsAux_append_space (x y : List Char) : ∀ acc,
    wordsAux (x ++ ' ' :: y) acc = wordsAux x acc ++ wordsAux y [] := by
  induction x with
  | nil =>
    intro acc
    show wordsAux (' ' :: y) acc = wordsAux [] acc ++ wordsAux y []
    by_cases he : acc = [] <;> simp [wordsAux, he, isSpace]
  | cons c xs ih =>
    intro acc
    show wordsAux (c :: (xs ++ ' ' :: y)) acc = wordsAux (c :: xs) acc ++ wordsAux y []
    by_cases hsp : isSpace c = true
    · by_cases he : acc = [] <;> simp [wordsAux, hsp, he, ih []]
    · simp [wordsAux, hsp, ih (c :: acc)]

theorem joinSpace_append (A B : List (List Char)) (hB : B ≠ []) :
    joinSpace (A ++ B) = if A = [] then joinSpace B else joinSpace A ++ ' ' :: joinSpace B := by
  induction A with
  | nil => simp
  | cons a A' ih =>
    rw [if_neg (by simp)]
    by_cases hA : A' = []
    · subst hA
      rw [List.singleton_append, joinSpace_cons, joinSpace_cons, if_neg hB, if_pos rfl,
          List.append_nil]
    · rw [List.cons_append, joinSpace_cons,
          if_neg (by intro hc; exact hA (List.append_eq_nil.mp hc).1), ih, if_neg hA,
          joinSpace_cons, if_neg hA]
      simp [List.append_assoc]

theorem nf_append_space (x y : List Char) :
    nf (x ++ ' ' :: y) = joinSp2 (nf x) (nf y) := by
  have hx2 : ∀ w ∈ wordsAux x [], w ≠ [] := fun w hw => wordsAux_ne_nil x [] w hw
  have hy2 : ∀ w ∈ wordsAux y [], w ≠ [] := fun w hw => wordsAux_ne_nil y [] w hw
  show joinSpace (wordsAux (x ++ ' ' :: y) []) = joinSp2 (nf x) (nf y)
  rw [wordsAux_append_space x y []]
  by_cases hxe : wordsAux x [] = []
  · have hnfx : nf x = [] := by rw [nf, wordsOf, hxe]; rfl
    rw [hxe, List.nil_append, joinSp2, if_pos hnfx]
    rfl
  · have hnfx : nf x ≠ [] := joinSpace_ne_nil hx2 hxe
    by_cases hye : wordsAux y [] = []
    · have hnfy : nf y = [] := by rw [nf, wordsOf, hye]; rfl
      rw [hye, List.append_nil, joinSp2, if_neg hnfx, if_pos hnfy]
      rfl
    · have hnfy : nf y ≠ [] := joinSpace_ne_nil hy2 hye
      rw [joinSpace_append _ _ hye, if_neg hxe, joinSp2, if_neg hnfx, if_neg hnfy]
      rfl

theorem cw_append_space (x y : List Char) :
    stripWS (collapseWS (x ++ ' ' :: y))
      = joinSp2 (stripWS (collapseWS x)) (stripWS (collapseWS y)) := by
  rw [stripWS_collapseWS, stripWS_collapseWS, stripWS_collapseWS, nf_append_space]

/-! ## Change detection (src/src/core/checksum.py, duplicated in src/src/crawler.py) -/

/-- A SHA-256 digest (`hashlib.sha256(text.encode()).hexdigest()`),
idealized as an injective digest of the hashed text: collision freedom of
the real hash is assumed exact. -/
structure Digest where
  text : List Char
deriving DecidableEq, Repr

/-- The idealized hash function. -/
def sha256 (l : List Char) : Digest := ⟨l⟩

/-- The head and article fields that the checksum functions read out of a
page.  BeautifulSoup's HTML parsing and readability's boilerplate removal
are abstracted to these extracted fields: `title` is the `<title>`
string (`none` when the element or its string is absent), `shortTitle`
is readability's `Document.short_title()`, `visibleText` the visible
text of the readability summary, `altTexts` the `img` alt attributes
inside the summary, and `jsonLd` the `application/ld+json` script
strings in document order. -/
structure HtmlDoc where
  title : Option (List Char)
  shortTitle : List Char
  metaDescription : Option (List Char)
  metaRobots : Option (List Char)
  canonicalLink : Option (List Char)
  hreflangs : List (List Char × List Char)
  jsonLd : List (Option (List Char))
  visibleText : List Char
  altTexts : List (List Char)
deriving DecidableEq, Repr

/-- `if tag and tag.get(attr): keep.append(prefix + value.strip())`:
the raw value must be truthy (nonempty) for a part to be emitted. -/
def optField (pre : List Char) : Option (List Char) → List (List Char)
  | some v => if v ≠ [] then [pre ++ stripWS v] else []
  | none => []

/-- The `keep` list of `compute_head_checksum`: title, `description:` and
`robots:` metas, `canon:` link, `hl:<lang>:<href>` alternates, JSON-LD
script texts. -/
def headParts (d : HtmlDoc) : List (List Char) :=
  optField [] d.title ++
  optField "description:".data d.metaDescription ++
  optField "robots:".data d.metaRobots ++
  optField "canon:".data d.canonicalLink ++
  d.hreflangs.map (fun hl => "hl:".data ++ hl.1 ++ ':' :: stripWS hl.2) ++
  d.jsonLd.map (fun s => match s with | some t => stripWS t | none => [])

/-- `compute_head_checksum`: hash of the space-joined stable head parts. -/
def compute_head_checksum (d : HtmlDoc) : Digest := sha256 (joinSpace (headParts d))

/-- `" ".join(img alt texts)` over truthy alt attributes. -/
def altsText (d : HtmlDoc) : List Char :=
  joinSpace ((d.altTexts.filter (fun a => a ≠ [])).map stripWS)

/-- The truthy-filtered `[title, meta_desc, alts, visible]` parts of
`content_and_hash`. -/
def contentParts (d : HtmlDoc) : List (List Char) :=
  ([stripWS d.shortTitle,
    (match d.metaDescription with
     | some m => if m ≠ [] then stripWS m else []
     | none => []),
    altsText d,
    d.visibleText]).filter (fun p => p ≠ [])

/-- `content_and_hash`: join the parts, collapse whitespace runs, strip,
and hash; returns `(clean_text, checksum)`. -/
def content_and_hash (d : HtmlDoc) : List Char × Digest :=
  (stripWS (collapseWS (joinSpace (contentParts d))),
   sha256 (stripWS (collapseWS (joinSpace (contentParts d)))))

/-- The effective title text seen by the head checksum: absent titles
contribute the empty string, present ones their stripped text. -/
def strippedTitle : Option (List Char) → List Char
  | some s => stripWS s
  | none => []

theorem join_cons_ne_join {w : List Char} (R : List (List Char)) (hw : w ≠ []) :
    joinSpace (w :: R) ≠ joinSpace R := by
  rw [joinSpace_cons]
  intro hc
  apply_fun List.length at hc
  by_cases hR : R = []
  · subst hR
    simp at hc
    exact hw (List.eq_nil_of_length_eq_zero hc)
  · rw [if_neg hR] at hc
    simp [List.length_append] at hc
    omega

theorem join_cons_inj {w1 w2 : List Char} (R : List (List Char))
    (h : joinSpace (w1 :: R) = joinSpace (w2 :: R)) : w1 = w2 := by
  rw [joinSpace_cons, joinSpace_cons] at h
  exact List.append_cancel_right h

/-- Amended head sensitivity: two documents identical except for the
title differ in head checksum provided the stripped titles differ
(an absent title counting as empty). -/
theorem headChecksum_title_sensitive (d : HtmlDoc) (t1 t2 : Option (List Char))
    (hne : strippedTitle t1 ≠ strippedTitle t2) :
    compute_head_checksum { d with title := t1 } ≠ compute_head_checksum { d with title := t2 } := by
  have hparts : ∀ t : Option (List Char),
      headParts { d with title := t } = optField [] t ++
        (optField "description:".data d.metaDescription ++
         optField "robots:".data d.metaRobots ++
         optField "canon:".data d.canonicalLink ++
         d.hreflangs.map (fun hl => "hl:".data ++ hl.1 ++ ':' :: stripWS hl.2) ++
         d.jsonLd.map (fun s => match s with | some t' => stripWS t' | none => [])) := by
    intro t
    simp [headParts, List.append_assoc]
  intro hc
  simp only [compute_head_checksum, sha256, Digest.mk.injEq] at hc
  rw [hparts t1, hparts t2] at hc
  set R := optField "description:".data d.metaDescription ++
         optField "robots:".data d.metaRobots ++
         optField "canon:".data d.canonicalLink ++
         d.hreflangs.map (fun hl => "hl:".data ++ hl.1 ++ ':' :: stripWS hl.2) ++
         d.jsonLd.map (fun s => match s with | some t' => stripWS t' | none => []) with hR
  -- case analysis on the shape of the emitted title parts
  have hcase : ∀ t : Option (List Char),
      optField [] t = [strippedTitle t] ∨ (optField [] t = [] ∧ strippedTitle t = []) := by
    intro t
    cases t with
    | none => exact Or.inr ⟨rfl, rfl⟩
    | some s =>
      by_cases hs : s = []
      · subst hs
        exact Or.inr ⟨by simp [optField], rfl⟩
      · left
        simp [optField, hs, strippedTitle]
  rcases hcase t1 with h1 | ⟨h1, h1s⟩ <;> rcases hcase t2 with h2 | ⟨h2, h2s⟩
  · rw [h1, h2] at hc
    exact hne (join_cons_inj R hc)
  · rw [h1, h2] at hc
    rw [h2s] at hne
    exact join_cons_ne_join R hne hc
  · rw [h1, h2] at hc
    rw [h1s] at hne
    exact join_cons_ne_join R (Ne.symm hne) hc.symm
  · rw [h1s, h2s] at hne
    exact hne rfl

theorem joinSp2_nil_left (b : List Char) : joinSp2 [] b = b := by
  simp [joinSp2]

theorem joinSp2_nil_right (a : List Char) : joinSp2 a [] = a := by
  unfold joinSp2
  by_cases ha : a = []
  · rw [if_pos ha, ha]
  · rw [if_neg ha, if_pos rfl]

theorem joinSp2_right_inj {X a b : List Char} (h : joinSp2 X a = joinSp2 X b) : a = b := by
  unfold joinSp2 at h
  by_cases hX : X = []
  · rw [if_pos hX, if_pos hX] at h
    exact h
  · rw [if_neg hX, if_neg hX] at h
    by_cases ha : a = [] <;> by_cases hb : b = []
    · rw [ha, hb]
    · rw [if_pos ha, if_neg hb] at h
      exfalso
      apply_fun List.length at h
      simp [List.length_append] at h
    · rw [if_neg ha, if_pos hb] at h
      exfalso
      apply_fun List.length at h
      simp [List.length_append] at h
    · rw [if_neg ha, if_neg hb] at h
      have h2 := List.append_cancel_left h
      exact (List.cons.injEq _ _ _ _ ▸ h2).2

/-- Amended content sensitivity: two documents identical except for the
visible article text have different content checksums whenever the
collapsed and stripped texts differ, and identical head checksums. -/
theorem content_visible_sensitive (d : HtmlDoc) (v1 v2 : List Char)
    (hne : stripWS (collapseWS v1) ≠ stripWS (collapseWS v2)) :
    (content_and_hash { d with visibleText := v1 }).2
      ≠ (content_and_hash { d with visibleText := v2 }).2 ∧
    compute_head_checksum { d with visibleText := v1 }
      = compute_head_checksum { d with visibleText := v2 } := by
  refine ⟨?_, rfl⟩
  have hclean : ∀ v : List Char,
      stripWS (collapseWS (joinSpace (contentParts { d with visibleText := v })))
        = joinSp2 (stripWS (collapseWS (joinSpace
            ([stripWS d.shortTitle,
              (match d.metaDescription with
               | some m => if m ≠ [] then stripWS m else []
               | none => []),
              altsText d].filter (fun p => p ≠ [])))))
            (stripWS (collapseWS v)) := by
    intro v
    have hsplit : contentParts { d with visibleText := v }
        = ([stripWS d.shortTitle,
            (match d.metaDescription with
             | some m => if m ≠ [] then stripWS m else []
             | none => []),
            altsText d].filter (fun p => p ≠ []))
          ++ ([v].filter (fun p => p ≠ [])) := by
      show ([stripWS d.shortTitle,
             (match d.metaDescription with
              | some m => if m ≠ [] then stripWS m else []
              | none => []),
             altsText d] ++ [v]).filter (fun p => p ≠ []) = _
      rw [List.filter_append]
    rw [hsplit]
    set P := [stripWS d.shortTitle,
              (match d.metaDescription with
               | some m => if m ≠ [] then stripWS m else []
               | none => []),
              altsText d].filter (fun p => p ≠ []) with hP
    by_cases hv : v = []
    · subst hv
      have : ([] : List Char) :: [] = [[]] := rfl
      have hfe : ([([] : List Char)].filter (fun p => p ≠ [])) = [] := by decide
      rw [hfe, List.append_nil]
      have hcwnil : stripWS (collapseWS ([] : List Char)) = [] := rfl
      rw [hcwnil, joinSp2_nil_right]
    · have hfe : ([v].filter (fun p => p ≠ [])) = [v] := by
        simp [List.filter, hv]
      rw [hfe]
      by_cases hPe : P = []
      · rw [hPe, List.nil_append]
        show stripWS (collapseWS v) = joinSp2 [] (stripWS (collapseWS v))
        rw [joinSp2_nil_left]
      · rw [joinSpace_append P [v] (by simp), if_neg hPe]
        show stripWS (collapseWS (joinSpace P ++ ' ' :: v)) = _
        rw [cw_append_space]
  intro hc
  simp only [content_and_hash, sha256, Digest.mk.injEq] at hc
  rw [hclean v1, hclean v2] at hc
  exact hne (joinSp2_right_inj hc)

example :
    (content_and_hash ⟨some "Example Page".data, "Example Page".data,
        some "Example description".data, none, none, [], [],
        "Main content".data, ["Example image".data]⟩).1
      = "Example Page Example description Example image Main content".data := by
  decide

example :
    compute_head_checksum ⟨some "a".data, "a".data, some "D".data, none, none, [], [],
        "body".data, []⟩
      = compute_head_checksum ⟨some "a ".data, "a".data, some "D".data, none, none, [], [],
        "body".data, []⟩ := by
  decide

/-! ## Legacy dual-checksum storage (src/src/crawler.py `upsert_page`) -/

/-- A row of the legacy `pages` table; timestamps are abstract ticks and
`NOW()` is passed in explicitly as `now`. -/
structure PageRow where
  title : List Char
  cleanText : List Char
  contentChecksum : Digest
  htmlChecksum : Digest
  lastSeen : Nat
  contentChanged : Nat
  htmlChanged : Nat
deriving DecidableEq, Repr

/-- `SELECT ... WHERE url = %s` on an association-list table. -/
def lookupRow (s : List (List Char × PageRow)) (url : List Char) : Option PageRow :=
  (s.find? (fun r => r.1 == url)).map (·.2)

/-- `UPDATE pages SET ... WHERE url = %s`. -/
def updateRow (s : List (List Char × PageRow)) (url : List Char) (r : PageRow) :
    List (List Char × PageRow) :=
  s.map (fun e => if e.1 == url then (url, r) else e)

namespace Legacy

/-- `upsert_page` of src/src/crawler.py: insert a fresh row (all
timestamps `NOW()`) when the url is new, else compare both stored
checksums, advance `content_changed` / `html_changed` conditionally and
`last_seen` unconditionally, and return the two change flags. -/
def upsert_page (s : List (List Char × PageRow)) (now : Nat)
    (url title cleanText : List Char) (contentCs headCs : Digest) :
    (Bool × Bool) × List (List Char × PageRow) :=
  match lookupRow s url with
  | none =>
    ((true, true), (url, ⟨title, cleanText, contentCs, headCs, now, now, now⟩) :: s)
  | some old =>
    let cChanged := decide (old.contentChecksum ≠ contentCs)
    let hChanged := decide (old.htmlChecksum ≠ headCs)
    ((cChanged, hChanged),
     updateRow s url
       ⟨title, cleanText, contentCs, headCs, now,
        if cChanged then now else old.contentChanged,
        if hChanged then now else old.htmlChanged⟩)

/-- The per-page storage step of the legacy crawl loop: recompute both
checksums from the fetched page and upsert. -/
def store_page (s : List (List Char × PageRow)) (now : Nat) (url : List Char) (d : HtmlDoc) :
    (Bool × Bool) × List (List Char × PageRow) :=
  upsert_page s now url d.shortTitle (content_and_hash d).1
    (content_and_hash d).2 (compute_head_checksum d)

end Legacy

/-! ## `PostgresStorage` (src/src/core/implementations/postgres_storage.py) -/

/-- `PageAssets` (src/src/core/interfaces/parser.py). -/
structure PageAssets where
  url : List Char
  rawHtml : List Char
  cleanText : List Char
  seoHead : List Char
  title : List Char
deriving DecidableEq, Repr

/-- A row of the `pages` table as used by `PostgresStorage`; the JSONB
metadata is kept as the raw `seo_head` string (its JSON decoding does not
matter to any claim), and `summary_vec` / `embedded_at` belong to the
embedding consumer. -/
structure PGRow where
  title : List Char
  cleanText : List Char
  rawHtml : List Char
  markdownChecksum : Digest
  markdownChanged : Nat
  metadata : List Char
  lastSeen : Nat
  summaryVec : Option (List Int)
  embeddedAt : Option Nat
deriving DecidableEq, Repr

/-- `SELECT ... WHERE url = %s`. -/
def lookupPG (s : List (List Char × PGRow)) (url : List Char) : Option PGRow :=
  (s.find? (fun r => r.1 == url)).map (·.2)

/-- `UPDATE pages SET ... WHERE url = %s`. -/
def updatePG (s : List (List Char × PGRow)) (url : List Char) (r : PGRow) :
    List (List Char × PGRow) :=
  s.map (fun e => if e.1 == url then (url, r) else e)

namespace PostgresStorage

/-- `PostgresStorage.upsert_page`: a single markdown checksum of
`clean_text`; new pages insert with `markdown_changed = last_seen = NOW()`
and null vector columns; for existing pages the row is rewritten (and
`markdown_changed` advanced) only when the checksum differs, else only
`last_seen` advances.  The second flag of the result is always `False`. -/
def upsert_page (s : List (List Char × PGRow)) (now : Nat) (assets : PageAssets) :
    (Bool × Bool) × List (List Char × PGRow) :=
  let markdownCs := sha256 assets.cleanText
  match lookupPG s assets.url with
  | none =>
    ((true, false),
     (assets.url, ⟨assets.title, assets.cleanText, assets.rawHtml, markdownCs, now,
       assets.seoHead, now, none, none⟩) :: s)
  | some old =>
    if old.markdownChecksum ≠ markdownCs then
      ((true, false),
       updatePG s assets.url
         ⟨assets.title, assets.cleanText, assets.rawHtml, markdownCs, now,
          assets.seoHead, now, old.summaryVec, old.embeddedAt⟩)
    else
      ((false, false), updatePG s assets.url { old with lastSeen := now })

/-- `PostgresStorage.pages_for_embedding`:
`SELECT url, clean_text FROM pages WHERE summary_vec IS NULL`. -/
def pages_for_embedding (s : List (List Char × PGRow)) : List (List Char × List Char) :=
  (s.filter (fun e => e.2.summaryVec.isNone)).map (fun e => (e.1, e.2.cleanText))

end PostgresStorage

/-- Modelled from the spec: `pages_for_embedding() -> list<(url,
clean_text)>` returns rows where `embedded_at` is null or a
content-changed timestamp exceeds it. -/
def spec_pages_for_embedding (s : List (List Char × PGRow)) : List (List Char × List Char) :=
  (s.filter (fun e =>
    match e.2.embeddedAt with
    | none => true
    | some t => decide (t < e.2.markdownChanged))).map (fun e => (e.1, e.2.cleanText))

theorem find?_map_update {β : Type} (s : List (List Char × β)) (url : List Char) (r : β)
    (h : (s.find? (fun e => e.1 == url)).isSome = true) :
    ((s.map (fun e => if e.1 == url then (url, r) else e)).find? (fun e => e.1 == url))
      = some (url, r) := by
  induction s with
  | nil => simp at h
  | cons e es ih =>
    by_cases he : (e.1 == url) = true
    · rw [List.map_cons, if_pos he]
      exact List.find?_cons_of_pos _ (beq_self_eq_true url)
    · have hh : List.find? (fun x => x.1 == url) (e :: es)
          = List.find? (fun x => x.1 == url) es := List.find?_cons_of_neg es he
      have hg : List.find? (fun x => x.1 == url)
            (e :: es.map (fun x => if x.1 == url then (url, r) else x))
          = List.find? (fun x => x.1 == url)
            (es.map (fun x => if x.1 == url then (url, r) else x)) :=
        List.find?_cons_of_neg _ he
      rw [hh] at h
      rw [List.map_cons, if_neg he, hg]
      exact ih h

theorem lookupRow_isSome {s : List (List Char × PageRow)} {url : List Char} {old : PageRow}
    (hold : lookupRow s url = some old) :
    (s.find? (fun e => e.1 == url)).isSome = true := by
  unfold lookupRow at hold
  cases hfind : s.find? (fun e => e.1 == url) with
  | none => rw [hfind] at hold; simp at hold
  | some e => simp [hfind]

theorem lookupRow_updateRow {s : List (List Char × PageRow)} {url : List Char}
    {old : PageRow} (r : PageRow) (hold : lookupRow s url = some old) :
    lookupRow (updateRow s url r) url = some r := by
  unfold lookupRow updateRow
  rw [find?_map_update s url r (lookupRow_isSome hold)]
  rfl

theorem lookupPG_isSome {s : List (List Char × PGRow)} {url : List Char} {old : PGRow}
    (hold : lookupPG s url = some old) :
    (s.find? (fun e => e.1 == url)).isSome = true := by
  unfold lookupPG at hold
  cases hfind : s.find? (fun e => e.1 == url) with
  | none => rw [hfind] at hold; simp at hold
  | some e => simp [hfind]

theorem lookupPG_updatePG {s : List (List Char × PGRow)} {url : List Char}
    {old : PGRow} (r : PGRow) (hold : lookupPG s url = some old) :
    lookupPG (updatePG s url r) url = some r := by
  unfold lookupPG updatePG
  rw [find?_map_update s url r (lookupPG_isSome hold)]
  rfl

/-- Characterization of the legacy `upsert_page` on an existing row: the
returned flags compare the stored checksums with the recomputed ones, and
the stored row afterwards has `last_seen = now` unconditionally while the
two change timestamps advance exactly when the respective checksum
differs. -/
theorem legacy_upsert_page_existing {s : List (List Char × PageRow)} {now : Nat}
    {url title cleanText : List Char} {contentCs headCs : Digest} {old : PageRow}
    (hold : lookupRow s url = some old) :
    (Legacy.upsert_page s now url title cleanText contentCs headCs).1
      = (decide (old.contentChecksum ≠ contentCs), decide (old.htmlChecksum ≠ headCs)) ∧
    ∃ row : PageRow,
      lookupRow (Legacy.upsert_page s now url title cleanText contentCs headCs).2 url
        = some row ∧
      row.lastSeen = now ∧
      row.contentChecksum = contentCs ∧ row.htmlChecksum = headCs ∧
      row.contentChanged
        = (if old.contentChecksum ≠ contentCs then now else old.contentChanged) ∧
      row.htmlChanged = (if old.htmlChecksum ≠ headCs then now else old.htmlChanged) := by
  have hred : Legacy.upsert_page s now url title cleanText contentCs headCs
      = ((decide (old.contentChecksum ≠ contentCs), decide (old.htmlChecksum ≠ headCs)),
         updateRow s url
           ⟨title, cleanText, contentCs, headCs, now,
            if decide (old.contentChecksum ≠ contentCs) = true then now
              else old.contentChanged,
            if decide (old.htmlChecksum ≠ headCs) = true then now else old.htmlChanged⟩) := by
    unfold Legacy.upsert_page
    rw [hold]
  rw [hred]
  refine ⟨rfl, _, lookupRow_updateRow _ hold, rfl, rfl, rfl, ?_, ?_⟩ <;>
    simp [decide_eq_true_eq]

/-- Characterization of `PostgresStorage.upsert_page` on an existing row:
the first flag compares the stored markdown checksum with the hash of the
new clean text, the second flag is always `false`, `last_seen` advances
unconditionally, `markdown_changed` advances exactly on a checksum
difference, and the embedding columns are untouched. -/
theorem pg_upsert_page_existing {s : List (List Char × PGRow)} {now : Nat}
    {assets : PageAssets} {old : PGRow}
    (hold : lookupPG s assets.url = some old) :
    (PostgresStorage.upsert_page s now assets).1
      = (decide (old.markdownChecksum ≠ sha256 assets.cleanText), false) ∧
    ∃ row : PGRow,
      lookupPG (PostgresStorage.upsert_page s now assets).2 assets.url = some row ∧
      row.lastSeen = now ∧
      row.markdownChanged
        = (if old.markdownChecksum ≠ sha256 assets.cleanText then now
           else old.markdownChanged) ∧
      row.summaryVec = old.summaryVec ∧ row.embeddedAt = old.embeddedAt := by
  by_cases hcs : old.markdownChecksum ≠ sha256 assets.cleanText
  · have hred : PostgresStorage.upsert_page s now assets
        = ((true, false),
           updatePG s assets.url
             ⟨assets.title, assets.cleanText, assets.rawHtml, sha256 assets.cleanText, now,
              assets.seoHead, now, old.summaryVec, old.embeddedAt⟩) := by
      unfold PostgresStorage.upsert_page
      rw [hold]
      simp [hcs]
    rw [hred]
    exact ⟨by simp [hcs], _, lookupPG_updatePG _ hold, rfl, by simp [hcs], rfl, rfl⟩
  · have hred : PostgresStorage.upsert_page s now assets
        = ((false, false), updatePG s assets.url { old with lastSeen := now }) := by
      unfold PostgresStorage.upsert_page
      rw [hold]
      simp [hcs]
    rw [hred]
    exact ⟨by simp [hcs], _, lookupPG_updatePG _ hold, rfl, by simp [hcs], rfl, rfl⟩

/-- Membership characterization of `pages_for_embedding`: exactly the
stored rows whose `summary_vec` is null, as `(url, clean_text)` pairs. -/
theorem pages_for_embedding_mem (s : List (List Char × PGRow)) (u t : List Char) :
    (u, t) ∈ PostgresStorage.pages_for_embedding s
      ↔ ∃ r : PGRow, (u, r) ∈ s ∧ r.summaryVec = none ∧ r.cleanText = t := by
  unfold PostgresStorage.pages_for_embedding
  constructor
  · intro hm
    rcases List.mem_map.mp hm with ⟨e, he, heq⟩
    rcases List.mem_filter.mp he with ⟨hes, hnone⟩
    have h1 : e.1 = u := congrArg Prod.fst heq
    have h2 : e.2.cleanText = t := congrArg Prod.snd heq
    refine ⟨e.2, ?_, Option.isNone_iff_eq_none.mp hnone, h2⟩
    have heu : (u, e.2) = e := by rw [← h1]
    rw [heu]
    exact hes
  · rintro ⟨r, hrs, hnone, hct⟩
    apply List.mem_map.mpr
    refine ⟨(u, r), List.mem_filter.mpr ⟨hrs, by simp [hnone]⟩, by simp [hct]⟩

/-! ## The BFS crawl loop (src/src/crawler/crawler.py `Crawler._crawl_loop`) -/

/-- The loop-relevant crawler settings (`CRAWLER_CONFIG`). -/
structure CrawlConfig where
  maxDepth : Nat
  maxPages : Nat
deriving DecidableEq, Repr

/-- A fetch result as the loop consumes it: the `error` flag, the
backend link list (`extra["links"]`, when the backend supplies one) and
otherwise the `href` attributes BeautifulSoup would extract from the
page HTML (the HTML parsing itself is abstracted to that list). -/
structure FetchR where
  error : Bool
  extraLinks : Option (List String)
  htmlHrefs : List String
deriving DecidableEq, Repr

/-- A deterministic web; `none` models a fetch that returns no result. -/
def Web := String → Option FetchR

/-- The links `Crawler.process_page` discovers on a page: the filtered
Firecrawl list when present, else the same-domain links of the HTML. -/
def newLinksOf (url : String) (fr : FetchR) : List String :=
  match fr.extraLinks with
  | some ls => firecrawlLinks url ls
  | none => sameDomainLinksHrefs url fr.htmlHrefs

/-- The crawler's mutable state.  Python's `set`s are modelled as
insertion-ordered duplicate-free lists (set iteration order is
abstracted to insertion order) and `depth_map` as an association list
with the newest binding first; `fetchLog` records every URL dispatched
to the Fetcher, in order. -/
structure CrawlState where
  frontier : List String
  depthMap : List (String × Nat)
  processed : List String
  currentDepth : Nat
  fetchLog : List String
deriving DecidableEq, Repr

/-- `self.depth_map[url]`. -/
def lookupDepth (m : List (String × Nat)) (u : String) : Option Nat :=
  (m.find? (fun e => e.1 == u)).map (·.2)

/-- `set.add`. -/
def addIfAbsent (x : String) (l : List String) : List String :=
  if x ∈ l then l else l ++ [x]

/-- The frontier effects of `Crawler.process_page` for a successfully
fetched page: when `depth + 1 <= max_depth`, each discovered link not in
`processed` and not in `frontier` is added to the frontier at depth
`depth + 1`.  Parser and storage effects do not influence the loop and
are omitted. -/
def processPage (cfg : CrawlConfig) (url : String) (fr : FetchR) (depth : Nat)
    (st : CrawlState) : CrawlState :=
  if depth + 1 ≤ cfg.maxDepth then
    (newLinksOf url fr).foldl (fun acc link =>
      if link ∉ acc.processed ∧ link ∉ acc.frontier then
        { acc with frontier := acc.frontier ++ [link],
                   depthMap := (link, depth + 1) :: acc.depthMap }
      else acc) st
  else st

/-- The `while` guard of `_crawl_loop`. -/
def loopCond (cfg : CrawlConfig) (st : CrawlState) : Prop :=
  st.frontier ≠ [] ∧ st.currentDepth ≤ cfg.maxDepth ∧ st.processed.length < cfg.maxPages

instance (cfg : CrawlConfig) (st : CrawlState) : Decidable (loopCond cfg st) := by
  unfold loopCond
  infer_instance

/-- `batch = {url for url in frontier if depth_map[url] == current_depth}`. -/
def takeBatch (st : CrawlState) : List String :=
  st.frontier.filter (fun u => lookupDepth st.depthMap u == some st.currentDepth)

/-- `frontier -= batch`, and the dispatch of the whole batch to the
Fetcher (logged in order). -/
def removeBatch (st : CrawlState) (batch : List String) : CrawlState :=
  { st with frontier := st.frontier.filter (fun u => !batch.contains u),
            fetchLog := st.fetchLog ++ batch }

/-- `if fetch_result is not None and not fetch_result.error: await
self.process_page(url, fetch_result, current_depth)`. -/
def processFetch (cfg : CrawlConfig) (u : String) :
    Option FetchR → Nat → CrawlState → CrawlState
  | some fr, d, acc => if fr.error = false then processPage cfg u fr d acc else acc
  | none, _, acc => acc

/-- One element of the result loop: process the fetch result, then
`self.processed.add(url)` regardless of the fetch outcome. -/
def processOne (cfg : CrawlConfig) (web : Web) (d : Nat) (acc : CrawlState)
    (u : String) : CrawlState :=
  let acc2 := processFetch cfg u (web u) d acc
  { acc2 with processed := addIfAbsent u acc2.processed }

/-- `for url, fetch_result in zip(batch, fetch_results): ...` — process
each successful result and mark every batch URL processed. -/
def processBatch (cfg : CrawlConfig) (web : Web) (d : Nat) (batch : List String)
    (st : CrawlState) : CrawlState :=
  batch.foldl (processOne cfg web d) st

/-- The end-of-iteration depth advance: move on when no frontier URL
remains at the current depth. -/
def finishDepth (d : Nat) (st2 : CrawlState) : CrawlState :=
  if st2.frontier.all (fun u => !(lookupDepth st2.depthMap u == some d)) then
    { st2 with currentDepth := d + 1 }
  else st2

/-- One iteration of the `while` body: take the batch at the current
depth (advancing the depth when it is empty), remove it from the
frontier, dispatch every batch URL to the Fetcher, process each result
and mark it processed, then advance the depth when no frontier URL
remains at the current depth. -/
def crawlStep (cfg : CrawlConfig) (web : Web) (st : CrawlState) : CrawlState :=
  let batch := takeBatch st
  if batch = [] then
    { st with currentDepth := st.currentDepth + 1 }
  else
    finishDepth st.currentDepth
      (processBatch cfg web st.currentDepth batch (removeBatch st batch))

/-- The fuelled `while` loop; `none` when the fuel runs out before the
guard goes false. -/
def crawlRun (cfg : CrawlConfig) (web : Web) : Nat → CrawlState → Option CrawlState
  | 0, _ => none
  | fuel + 1, st =>
    if loopCond cfg st then crawlRun cfg web fuel (crawlStep cfg web st) else some st

/-- The state set up by `_crawl_loop` before the loop. -/
def initState (start : String) : CrawlState :=
  { frontier := [canonical start], depthMap := [(canonical start, 0)], processed := [],
    currentDepth := 0, fetchLog := [] }

/-- `Crawler._crawl_loop` from a seed URL. -/
def crawl (cfg : CrawlConfig) (web : Web) (fuel : Nat) (start : String) : Option CrawlState :=
  crawlRun cfg web fuel (initState start)

/-! ### Concrete webs used as test fixtures -/

/-- A seed page whose backend link list contains the seed itself. -/
def selfWeb : Web := fun u =>
  if u = "https://example.com" then some ⟨false, some ["https://example.com"], []⟩ else none

/-- Seed `S` linking to `P1` and `P2`, where `P1`'s page links to `P2`. -/
def siblingWeb : Web := fun u =>
  if u = "https://example.com" then
    some ⟨false, some ["https://example.com/p1", "https://example.com/p2"], []⟩
  else if u = "https://example.com/p1" then
    some ⟨false, some ["https://example.com/p2"], []⟩
  else if u = "https://example.com/p2" then some ⟨false, some [], []⟩
  else none

/-- A three-page chain `A → B → C`. -/
def chainWeb : Web := fun u =>
  if u = "https://example.com" then some ⟨false, some ["https://example.com/b"], []⟩
  else if u = "https://example.com/b" then
    some ⟨false, some ["https://example.com/c"], []⟩
  else if u = "https://example.com/c" then some ⟨false, some [], []⟩
  else none

/-- A star: the seed links to nine leaf pages (ten reachable pages). -/
def starWeb : Web := fun u =>
  if u = "https://example.com" then
    some ⟨false, some ["https://example.com/p1", "https://example.com/p2",
      "https://example.com/p3", "https://example.com/p4", "https://example.com/p5",
      "https://example.com/p6", "https://example.com/p7", "https://example.com/p8",
      "https://example.com/p9"], []⟩
  else if "https://example.com/p".data.isPrefixOf u.data then some ⟨false, some [], []⟩
  else none

/-- A ten-page chain `A1 → A2 → ... → A10`. -/
def chain10Web : Web := fun u =>
  if u = "https://example.com" then some ⟨false, some ["https://example.com/a2"], []⟩
  else if u = "https://example.com/a2" then some ⟨false, some ["https://example.com/a3"], []⟩
  else if u = "https://example.com/a3" then some ⟨false, some ["https://example.com/a4"], []⟩
  else if u = "https://example.com/a4" then some ⟨false, some ["https://example.com/a5"], []⟩
  else if u = "https://example.com/a5" then some ⟨false, some ["https://example.com/a6"], []⟩
  else if u = "https://example.com/a6" then some ⟨false, some ["https://example.com/a7"], []⟩
  else if u = "https://example.com/a7" then some ⟨false, some ["https://example.com/a8"], []⟩
  else if u = "https://example.com/a8" then some ⟨false, some ["https://example.com/a9"], []⟩
  else if u = "https://example.com/a9" then some ⟨false, some ["https://example.com/a10"], []⟩
  else if u = "https://example.com/a10" then some ⟨false, some [], []⟩
  else none

example : (crawl ⟨1, 5⟩ selfWeb 10 "https://example.com").map (fun st => st.fetchLog)
    = some ["https://example.com", "https://example.com"] := by decide

example : (crawl ⟨2, 100⟩ siblingWeb 10 "https://example.com").map
      (fun st => st.fetchLog.count "https://example.com/p2") = some 2 := by decide

example : (crawl ⟨1, 100⟩ chainWeb 10 "https://example.com").map (fun st => st.processed)
    = some ["https://example.com", "https://example.com/b"] := by decide

example : (crawl ⟨1, 100⟩ chainWeb 10 "https://example.com").map
      (fun st => st.fetchLog.contains "https://example.com/c") = some false := by decide

example : (crawl ⟨3, 3⟩ starWeb 10 "https://example.com").map
      (fun st => st.processed.length) = some 10 := by decide

example : (crawl ⟨100, 3⟩ chain10Web 20 "https://example.com").map
      (fun st => st.processed.length) = some 3 := by decide

/-! ### Depth bounds every fetch -/

/-- One link-discovery edge of the crawl graph: `v` is among the
filtered links of `u`'s successfully fetched page. -/
def Edge (web : Web) (u v : String) : Prop :=
  ∃ fr, web u = some fr ∧ fr.error = false ∧ v ∈ newLinksOf u fr

/-- `u` is reachable from the seed `s` in at most `n` link hops. -/
inductive ReachWithin (web : Web) (s : String) : Nat → String → Prop
  | base (n : Nat) : ReachWithin web s n s
  | step {n : Nat} {u v : String} :
      ReachWithin web s n u → Edge web u v → ReachWithin web s (n + 1) v

theorem ReachWithin.mono {web : Web} {s : String} {n m : Nat} {u : String}
    (h : ReachWithin web s n u) (hnm : n ≤ m) : ReachWithin web s m u := by
  induction h generalizing m with
  | base n => exact ReachWithin.base m
  | step hr he ih =>
    cases m with
    | zero => omega
    | succ m' => exact ReachWithin.step (ih (by omega)) he

/-- Every depth-map binding is justified by reachability. -/
def DepthInv (web : Web) (s : String) (st : CrawlState) : Prop :=
  ∀ u d, lookupDepth st.depthMap u = some d → ReachWithin web s d u

/-- Every dispatched URL is within `maxDepth` hops of the seed. -/
def LogInv (web : Web) (s : String) (maxDepth : Nat) (st : CrawlState) : Prop :=
  ∀ u ∈ st.fetchLog, ReachWithin web s maxDepth u

theorem lookupDepth_cons (k : String) (v : Nat) (m : List (String × Nat)) (u : String) :
    lookupDepth ((k, v) :: m) u = if k == u then some v else lookupDepth m u := by
  unfold lookupDepth
  by_cases hk : (k == u) = true
  · have hf : List.find? (fun e => e.1 == u) ((k, v) :: m) = some (k, v) :=
      List.find?_cons_of_pos _ hk
    rw [if_pos hk, hf]
    rfl
  · have hf : List.find? (fun e => e.1 == u) ((k, v) :: m)
        = List.find? (fun e => e.1 == u) m := List.find?_cons_of_neg _ hk
    rw [if_neg hk, hf]

theorem processPage_frontier_fold {web : Web} {s : String} {depth : Nat} (url : String)
    (L : List String) (hL : ∀ l ∈ L, Edge web url l)
    (hurl : ReachWithin web s depth url) :
    ∀ st : CrawlState, DepthInv web s st →
      DepthInv web s (L.foldl (fun acc link =>
        if link ∉ acc.processed ∧ link ∉ acc.frontier then
          { acc with frontier := acc.frontier ++ [link],
                     depthMap := (link, depth + 1) :: acc.depthMap }
        else acc) st) := by
  induction L with
  | nil => intro st h; exact h
  | cons l ls ih =>
    intro st h
    rw [List.foldl_cons]
    apply ih (fun x hx => hL x (List.mem_cons_of_mem l hx))
    by_cases hc : l ∉ st.processed ∧ l ∉ st.frontier
    · rw [if_pos hc]
      intro u d hud
      rw [lookupDepth_cons] at hud
      by_cases hul : (l == u) = true
      · rw [if_pos hul] at hud
        cases hud
        have hueq : l = u := eq_of_beq hul
        subst hueq
        exact ReachWithin.step hurl (hL l (List.mem_cons_self l ls))
      · rw [if_neg hul] at hud
        exact h u d hud
    · rw [if_neg hc]
      exact h

theorem processPage_depthInv {cfg : CrawlConfig} {web : Web} {s url : String} {fr : FetchR}
    {depth : Nat} {st : CrawlState} (h : DepthInv web s st)
    (hurl : ReachWithin web s depth url) (hfr : web url = some fr)
    (herr : fr.error = false) :
    DepthInv web s (processPage cfg url fr depth st) := by
  unfold processPage
  by_cases hd : depth + 1 ≤ cfg.maxDepth
  · rw [if_pos hd]
    exact processPage_frontier_fold url (newLinksOf url fr)
      (fun l hl => ⟨fr, hfr, herr, hl⟩) hurl st h
  · rw [if_neg hd]
    exact h

theorem processPage_fold_fetchLog (depth : Nat) (L : List String) :
    ∀ st : CrawlState,
      (L.foldl (fun acc link =>
        if link ∉ acc.processed ∧ link ∉ acc.frontier then
          { acc with frontier := acc.frontier ++ [link],
                     depthMap := (link, depth + 1) :: acc.depthMap }
        else acc) st).fetchLog = st.fetchLog := by
  induction L with
  | nil => intro st; rfl
  | cons l ls ih =>
    intro st
    rw [List.foldl_cons, ih]
    by_cases hc : l ∉ st.processed ∧ l ∉ st.frontier
    · rw [if_pos hc]
    · rw [if_neg hc]

theorem processPage_fetchLog (cfg : CrawlConfig) (url : String) (fr : FetchR) (depth : Nat)
    (st : CrawlState) : (processPage cfg url fr depth st).fetchLog = st.fetchLog := by
  unfold processPage
  by_cases hd : depth + 1 ≤ cfg.maxDepth
  · rw [if_pos hd]
    exact processPage_fold_fetchLog depth (newLinksOf url fr) st
  · rw [if_neg hd]

theorem processFetch_depthInv {cfg : CrawlConfig} {web : Web} {s u : String} {d : Nat}
    {acc : CrawlState} (h : DepthInv web s acc) (hu : ReachWithin web s d u) :
    DepthInv web s (processFetch cfg u (web u) d acc) := by
  cases hw : web u with
  | none => exact h
  | some fr =>
    show DepthInv web s (if fr.error = false then processPage cfg u fr d acc else acc)
    by_cases herr : fr.error = false
    · rw [if_pos herr]
      exact processPage_depthInv h hu hw herr
    · rw [if_neg herr]
      exact h

theorem processFetch_fetchLog (cfg : CrawlConfig) (u : String) (o : Option FetchR)
    (d : Nat) (acc : CrawlState) :
    (processFetch cfg u o d acc).fetchLog = acc.fetchLog := by
  cases o with
  | none => rfl
  | some fr =>
    show (if fr.error = false then processPage cfg u fr d acc else acc).fetchLog = acc.fetchLog
    by_cases herr : fr.error = false
    · rw [if_pos herr]
      exact processPage_fetchLog cfg u fr d acc
    · rw [if_neg herr]

theorem processOne_inv {cfg : CrawlConfig} {web : Web} {s : String} {d : Nat}
    {acc : CrawlState} {u : String} (h : DepthInv web s acc)
    (hu : ReachWithin web s d u) :
    DepthInv web s (processOne cfg web d acc u) ∧
    (processOne cfg web d acc u).fetchLog = acc.fetchLog := by
  constructor
  · intro x dd hx
    exact processFetch_depthInv h hu x dd hx
  · show (processFetch cfg u (web u) d acc).fetchLog = acc.fetchLog
    exact processFetch_fetchLog cfg u (web u) d acc

theorem processBatch_inv {cfg : CrawlConfig} {web : Web} {s : String} {d : Nat}
    (batch : List String) (hbatch : ∀ u ∈ batch, ReachWithin web s d u) :
    ∀ st : CrawlState, DepthInv web s st →
      DepthInv web s (processBatch cfg web d batch st) ∧
      (processBatch cfg web d batch st).fetchLog = st.fetchLog := by
  induction batch with
  | nil => intro st h; exact ⟨h, rfl⟩
  | cons u us ih =>
    intro st h
    have hcons : processBatch cfg web d (u :: us) st
        = processBatch cfg web d us (processOne cfg web d st u) := rfl
    rw [hcons]
    have hstep := @processOne_inv cfg web s d st u h (hbatch u (List.mem_cons_self u us))
    have hrest := ih (fun x hx => hbatch x (List.mem_cons_of_mem u hx)) _ hstep.1
    refine ⟨hrest.1, ?_⟩
    rw [hrest.2, hstep.2]

theorem finishDepth_fields (d : Nat) (st2 : CrawlState) :
    (finishDepth d st2).depthMap = st2.depthMap ∧
    (finishDepth d st2).fetchLog = st2.fetchLog := by
  unfold finishDepth
  by_cases hc : st2.frontier.all (fun u => !(lookupDepth st2.depthMap u == some d)) = true
  · rw [if_pos hc]
    exact ⟨rfl, rfl⟩
  · rw [if_neg hc]
    exact ⟨rfl, rfl⟩

theorem crawlStep_inv {cfg : CrawlConfig} {web : Web} {s : String} {st : CrawlState}
    (hD : DepthInv web s st) (hL : LogInv web s cfg.maxDepth st) (hcond : loopCond cfg st) :
    DepthInv web s (crawlStep cfg web st) ∧
    LogInv web s cfg.maxDepth (crawlStep cfg web st) := by
  simp only [crawlStep]
  by_cases hbe : takeBatch st = []
  · rw [if_pos hbe]
    exact ⟨fun x dd hx => hD x dd hx, fun u hu => hL u hu⟩
  · rw [if_neg hbe]
    have hbatchreach : ∀ u ∈ takeBatch st, ReachWithin web s st.currentDepth u := by
      intro u hu
      rcases List.mem_filter.mp hu with ⟨_, hdep⟩
      exact hD u st.currentDepth (eq_of_beq hdep)
    have hremD : DepthInv web s (removeBatch st (takeBatch st)) :=
      fun x dd hx => hD x dd hx
    have hremL : LogInv web s cfg.maxDepth (removeBatch st (takeBatch st)) := by
      intro u hu
      have hu2 : u ∈ st.fetchLog ++ takeBatch st := hu
      rcases List.mem_append.mp hu2 with h1 | h2
      · exact hL u h1
      · exact (hbatchreach u h2).mono hcond.2.1
    have hpb := @processBatch_inv cfg web s st.currentDepth (takeBatch st) hbatchreach _ hremD
    constructor
    · intro x dd hx
      rw [(finishDepth_fields st.currentDepth _).1] at hx
      exact hpb.1 x dd hx
    · intro u hu
      rw [(finishDepth_fields st.currentDepth _).2, hpb.2] at hu
      exact hremL u hu

theorem crawlRun_inv {cfg : CrawlConfig} {web : Web} {s : String} :
    ∀ (fuel : Nat) (st st' : CrawlState), DepthInv web s st →
      LogInv web s cfg.maxDepth st →
      crawlRun cfg web fuel st = some st' → LogInv web s cfg.maxDepth st' := by
  intro fuel
  induction fuel with
  | zero =>
    intro st st' _ _ hrun
    simp [crawlRun] at hrun
  | succ n ih =>
    intro st st' hD hL hrun
    unfold crawlRun at hrun
    by_cases hc : loopCond cfg st
    · rw [if_pos hc] at hrun
      obtain ⟨hD2, hL2⟩ := crawlStep_inv hD hL hc
      exact ih _ _ hD2 hL2 hrun
    · rw [if_neg hc] at hrun
      cases hrun
      exact hL

/-- No URL more than `max_depth` link hops from the seed is ever
dispatched to the Fetcher. -/
theorem crawl_fetch_within_maxDepth {cfg : CrawlConfig} {web : Web} {fuel : Nat}
    {start : String} {st' : CrawlState} (hrun : crawl cfg web fuel start = some st') :
    ∀ u ∈ st'.fetchLog, ReachWithin web (canonical start) cfg.maxDepth u := by
  have hD : DepthInv web (canonical start) (initState start) := by
    intro u d hud
    have hdm : (initState start).depthMap = [(canonical start, 0)] := rfl
    rw [hdm, lookupDepth_cons] at hud
    by_cases hc : (canonical start == u) = true
    · rw [if_pos hc] at hud
      cases hud
      have := eq_of_beq hc
      rw [← this]
      exact ReachWithin.base 0
    · rw [if_neg hc] at hud
      simp [lookupDepth] at hud
  have hL : LogInv web (canonical start) cfg.maxDepth (initState start) := by
    intro u hu
    simp [initState] at hu
  exact crawlRun_inv fuel _ _ hD hL hrun

/-- Once the processed count has reached `max_pages`, the loop guard is
false and the run returns the state unchanged. -/
theorem crawlRun_stops_at_maxPages {cfg : CrawlConfig} {web : Web} {st : CrawlState}
    {fuel : Nat} (hp : cfg.maxPages ≤ st.processed.length) (hf : 1 ≤ fuel) :
    crawlRun cfg web fuel st = some st := by
  cases fuel with
  | zero => omega
  | succ n =>
    have hnc : ¬ loopCond cfg st := fun hc => absurd hc.2.2 (by omega)
    unfold crawlRun
    rw [if_neg hnc]

/-! ## Per-candidate characterization of the two link filters -/

theorem render_ne_nil (v : ValidURL) : v.render ≠ [] := by
  unfold ValidURL.render
  cases h : v.scheme with
  | nil => simp
  | cons c cs => simp

theorem hash_not_in_render {v : ValidURL} (h : v.WF) (hf : v.fragment = none) :
    '#' ∉ v.render := by
  obtain ⟨hs, _, _, hha, hpa, _, hq⟩ := h
  intro hm
  unfold ValidURL.render at hm
  rcases List.mem_append.mp hm with h1 | h2
  · cases hsc : v.scheme with
    | nil => rw [hsc] at h1; simp at h1
    | cons c cs =>
      rw [hsc] at hs h1
      simp only [isValidScheme, Bool.and_eq_true] at hs
      have := List.all_eq_true.mp hs.2 '#' h1
      exact absurd this (by decide)
  · rcases List.mem_cons.mp h2 with h3 | h4
    · exact absurd h3 (by decide)
    · rcases List.mem_cons.mp h4 with h5 | h6
      · exact absurd h5 (by decide)
      · rcases List.mem_cons.mp h6 with h7 | h8
        · exact absurd h7 (by decide)
        · rcases List.mem_append.mp h8 with h9 | h10
          · have := List.all_eq_true.mp hha '#' h9
            simp [netlocEnd] at this
          · rcases List.mem_append.mp h10 with h11 | h12
            · have := List.all_eq_true.mp hpa '#' h11
              simp at this
            · rcases List.mem_append.mp h12 with h13 | h14
              · cases hqv : v.query with
                | none => rw [ValidURL.qpart, hqv] at h13; simp at h13
                | some q =>
                  rw [ValidURL.qpart, hqv] at h13
                  rcases List.mem_cons.mp h13 with h15 | h16
                  · exact absurd h15 (by decide)
                  · rw [hqv] at hq
                    have := List.all_eq_true.mp hq '#' h16
                    simp at this
              · rw [ValidURL.fpart, hf] at h14
                simp at h14

theorem urldefragL_no_hash {l : List Char} (h : '#' ∉ l) : urldefragL l = l := by
  unfold urldefragL
  rw [if_neg]
  simpa using h

theorem assemble_eq_render (sch host path q : List Char) :
    assemble sch host path q
      = (ValidURL.mk sch host path (if q = [] then none else some q) none).render := by
  by_cases hq : q = []
  · subst hq
    simp [assemble, ValidURL.render, ValidURL.qpart, ValidURL.fpart]
  · simp [assemble, hq, ValidURL.render, ValidURL.qpart, ValidURL.fpart, List.append_assoc]

/-- Defragmenting a rendered URL keeps everything but the fragment (for
queries that are not present-but-empty). -/
theorem urldefragL_render {v : ValidURL} (h : v.WF) (hqe : v.query ≠ some []) :
    urldefragL v.render
      = (ValidURL.mk v.scheme v.host v.path v.query none).render := by
  cases hf : v.fragment with
  | none =>
    rw [urldefragL_no_hash (hash_not_in_render h hf)]
    have hv : ValidURL.mk v.scheme v.host v.path v.query none = v := by
      rw [← hf]
    rw [hv]
  | some f =>
    have hmem : '#' ∈ v.render := by
      unfold ValidURL.render
      apply List.mem_append.mpr
      right
      apply List.mem_cons_of_mem
      apply List.mem_cons_of_mem
      apply List.mem_cons_of_mem
      apply List.mem_append.mpr
      right
      apply List.mem_append.mpr
      right
      apply List.mem_append.mpr
      right
      rw [ValidURL.fpart, hf]
      exact List.mem_cons_self _ _
    unfold urldefragL
    rw [if_pos (by simpa using hmem)]
    rw [parseURL_render v h]
    show unparseURL ⟨v.scheme, v.host, v.path, v.query.getD [], []⟩ = _
    rw [unparse_eq_assemble (isValidScheme_ne_nil h.1) h.2.2.1 h.2.2.2.2.2.1]
    rw [assemble_eq_render]
    cases hqv : v.query with
    | none => simp
    | some q =>
      have hqne : q ≠ [] := by
        intro hc
        exact hqe (by rw [hqv, hc])
      simp [hqne]

theorem isPrefixOf_colon_iff {p : List Char} (t : List Char) (hp : ':' ∉ p) :
    ∀ {sch : List Char} (r : List Char), ':' ∉ sch →
      ((p ++ ':' :: t).isPrefixOf (sch ++ ':' :: r) = true
        ↔ (p = sch ∧ t.isPrefixOf r = true)) := by
  induction p with
  | nil =>
    intro sch r hs
    cases sch with
    | nil => simp [List.isPrefixOf]
    | cons c cs =>
      have hc : (':' == c) = false := by
        simp only [List.mem_cons, not_or] at hs
        simp [beq_eq_false_iff_ne, hs.1]
      simp [List.isPrefixOf, hc]
  | cons a as ih =>
    intro sch r hs
    simp only [List.mem_cons, not_or] at hp
    cases sch with
    | nil =>
      have ha : (a == ':') = false := by
        simp [beq_eq_false_iff_ne]
        intro hc
        exact hp.1 hc.symm
      simp [List.isPrefixOf, ha]
    | cons c cs =>
      simp only [List.mem_cons, not_or] at hs
      by_cases hac : a = c
      · subst hac
        simp only [List.cons_append, List.isPrefixOf, beq_self_eq_true, Bool.true_and]
        show ((as ++ ':' :: t).isPrefixOf (cs ++ ':' :: r) = true) ↔ _
        rw [ih hp.2 r hs.2]
        simp
      · have h1 : (a == c) = false := by simp [beq_eq_false_iff_ne, hac]
        simp [List.isPrefixOf, h1, hac]

theorem startsWith_scheme_colon (v : ValidURL) (hvs : isValidScheme v.scheme = true)
    (p t : List Char) (hp : ':' ∉ p) :
    ((p ++ ':' :: t).isPrefixOf v.render = true)
      ↔ (p = v.scheme ∧
         t.isPrefixOf ('/' :: '/' :: (v.host ++ (v.path ++ (v.qpart ++ v.fpart)))) = true) := by
  unfold ValidURL.render
  exact isPrefixOf_colon_iff t hp _ (isValidScheme_no_colon hvs)

theorem render_not_hash_start (v : ValidURL) (hvs : isValidScheme v.scheme = true) :
    "#".data.isPrefixOf v.render = false := by
  cases hsc : v.scheme with
  | nil => rw [hsc] at hvs; simp [isValidScheme] at hvs
  | cons c cs =>
    rw [hsc] at hvs
    simp only [isValidScheme, Bool.and_eq_true] at hvs
    have hca : c.isAlpha = true := hvs.1
    have hne : ('#' == c) = false := by
      rw [beq_eq_false_iff_ne]
      intro hcc
      rw [← hcc] at hca
      exact absurd hca (by decide)
    unfold ValidURL.render
    rw [hsc]
    show ('#' == c && List.isPrefixOf [] _) = false
    rw [hne]
    rfl

theorem urljoinL_absolute {b c : ValidURL} (hb : b.WF) (hc : c.WF)
    (hbs : b.scheme = "http".data ∨ b.scheme = "https".data)
    (hcf : c.fragment = none) (hcq : c.query ≠ some []) :
    urljoinL b.render c.render = c.render := by
  simp only [urljoinL]
  rw [if_neg (render_ne_nil b), if_neg (render_ne_nil c),
      parseURL_render b hb, parseURL_render c hc]
  simp only
  rw [if_neg (isValidScheme_ne_nil hc.1)]
  by_cases hsch : c.scheme = b.scheme
  · rw [if_neg]
    · rw [if_pos]
      · rw [hcf]
        show unparseURL ⟨c.scheme, c.host, c.path, c.query.getD [], []⟩ = _
        rw [unparse_eq_assemble (isValidScheme_ne_nil hc.1) hc.2.2.1 hc.2.2.2.2.2.1]
        cases hqv : c.query with
        | none =>
          rw [Option.getD_none, assemble_eq_render, if_pos rfl]
          nth_rewrite 1 [← hqv]
          rw [← hcf]
        | some q =>
          have hqne : q ≠ [] := by
            intro hcon
            exact hcq (by rw [hqv, hcon])
          rw [Option.getD_some, assemble_eq_render, if_neg hqne, ← hqv, ← hcf]
      · constructor
        · rw [hsch]
          rcases hbs with h1 | h1
          · rw [h1]
            show "http".data ∈ usesNetloc
            decide
          · rw [h1]
            show "https".data ∈ usesNetloc
            decide
        · exact hc.2.2.1
    · intro hcon
      rcases hcon with h1 | h1
      · exact h1 hsch
      · rw [hsch] at h1
        rcases hbs with h2 | h2
        · rw [h2] at h1
          exact h1 (by decide : ("http".data : List Char) ∈ usesRelative)
        · rw [h2] at h1
          exact h1 (by decide : ("https".data : List Char) ∈ usesRelative)
  · rw [if_pos (Or.inl hsch)]

/-! ## Membership characterizations of the two link-extraction folds -/

theorem mem_insertUnique (x c : String) (l : List String) :
    c ∈ insertUnique x l ↔ c ∈ l ∨ c = x := by
  unfold insertUnique
  by_cases hx : x ∈ l
  · rw [if_pos hx]
    constructor
    · exact fun h => Or.inl h
    · rintro (h | rfl)
      · exact h
      · exact hx
  · rw [if_neg hx]
    rw [List.mem_append, List.mem_singleton]

theorem sameDomainLinks_fold_mem (base : String) :
    ∀ (hrefs : List String) (acc : List String) (c : String),
      c ∈ hrefs.foldl (fun links a =>
          match htmlKeep base a with
          | some c => insertUnique c links
          | none => links) acc
        ↔ c ∈ acc ∨ ∃ a ∈ hrefs, htmlKeep base a = some c := by
  intro hrefs
  induction hrefs with
  | nil =>
    intro acc c
    simp
  | cons a as ih =>
    intro acc c
    rw [List.foldl_cons]
    cases hk : htmlKeep base a with
    | none =>
      show c ∈ List.foldl (fun links a =>
          match htmlKeep base a with
          | some c => insertUnique c links
          | none => links) acc as
        ↔ c ∈ acc ∨ ∃ a2 ∈ a :: as, htmlKeep base a2 = some c
      rw [ih acc c]
      constructor
      · rintro (h | ⟨a2, ha2, hk2⟩)
        · exact Or.inl h
        · exact Or.inr ⟨a2, List.mem_cons_of_mem _ ha2, hk2⟩
      · rintro (h | ⟨a2, ha2, hk2⟩)
        · exact Or.inl h
        · rcases List.mem_cons.mp ha2 with h2 | h2
          · rw [h2, hk] at hk2
            cases hk2
          · exact Or.inr ⟨a2, h2, hk2⟩
    | some k =>
      show c ∈ List.foldl (fun links a =>
          match htmlKeep base a with
          | some c => insertUnique c links
          | none => links) (insertUnique k acc) as
        ↔ c ∈ acc ∨ ∃ a2 ∈ a :: as, htmlKeep base a2 = some c
      rw [ih (insertUnique k acc) c, mem_insertUnique]
      constructor
      · rintro ((h | rfl) | ⟨a2, ha2, hk2⟩)
        · exact Or.inl h
        · exact Or.inr ⟨a, List.mem_cons_self a as, hk⟩
        · exact Or.inr ⟨a2, List.mem_cons_of_mem _ ha2, hk2⟩
      · rintro (h | ⟨a2, ha2, hk2⟩)
        · exact Or.inl (Or.inl h)
        · rcases List.mem_cons.mp ha2 with h2 | h2
          · rw [h2, hk] at hk2
            injection hk2 with hkc
            exact Or.inl (Or.inr hkc.symm)
          · exact Or.inr ⟨a2, h2, hk2⟩

theorem mem_sameDomainLinksHrefs (base c : String) (hrefs : List String) :
    c ∈ sameDomainLinksHrefs base hrefs ↔ ∃ a ∈ hrefs, htmlKeep base a = some c := by
  unfold sameDomainLinksHrefs
  rw [sameDomainLinks_fold_mem base hrefs [] c]
  simp

theorem firecrawl_fold_mem (pageUrl : String) :
    ∀ (links : List String) (acc : List String) (c : String),
      c ∈ links.foldl (fun acc link =>
          match firecrawlKeep pageUrl link with
          | some cl => acc ++ [cl]
          | none => acc) acc
        ↔ c ∈ acc ∨ ∃ l ∈ links, firecrawlKeep pageUrl l = some c := by
  intro links
  induction links with
  | nil =>
    intro acc c
    simp
  | cons a as ih =>
    intro acc c
    rw [List.foldl_cons]
    cases hk : firecrawlKeep pageUrl a with
    | none =>
      show c ∈ List.foldl (fun acc link =>
          match firecrawlKeep pageUrl link with
          | some cl => acc ++ [cl]
          | none => acc) acc as
        ↔ c ∈ acc ∨ ∃ a2 ∈ a :: as, firecrawlKeep pageUrl a2 = some c
      rw [ih acc c]
      constructor
      · rintro (h | ⟨a2, ha2, hk2⟩)
        · exact Or.inl h
        · exact Or.inr ⟨a2, List.mem_cons_of_mem _ ha2, hk2⟩
      · rintro (h | ⟨a2, ha2, hk2⟩)
        · exact Or.inl h
        · rcases List.mem_cons.mp ha2 with h2 | h2
          · rw [h2, hk] at hk2
            cases hk2
          · exact Or.inr ⟨a2, h2, hk2⟩
    | some k =>
      show c ∈ List.foldl (fun acc link =>
          match firecrawlKeep pageUrl link with
          | some cl => acc ++ [cl]
          | none => acc) (acc ++ [k]) as
        ↔ c ∈ acc ∨ ∃ a2 ∈ a :: as, firecrawlKeep pageUrl a2 = some c
      rw [ih (acc ++ [k]) c, List.mem_append, List.mem_singleton]
      constructor
      · rintro ((h | rfl) | ⟨a2, ha2, hk2⟩)
        · exact Or.inl h
        · exact Or.inr ⟨a, List.mem_cons_self a as, hk⟩
        · exact Or.inr ⟨a2, List.mem_cons_of_mem _ ha2, hk2⟩
      · rintro (h | ⟨a2, ha2, hk2⟩)
        · exact Or.inl (Or.inl h)
        · rcases List.mem_cons.mp ha2 with h2 | h2
          · rw [h2, hk] at hk2
            injection hk2 with hkc
            exact Or.inl (Or.inr hkc.symm)
          · exact Or.inr ⟨a2, h2, hk2⟩

theorem mem_firecrawlLinks (pageUrl c : String) (links : List String) :
    c ∈ firecrawlLinks pageUrl links ↔ ∃ l ∈ links, firecrawlKeep pageUrl l = some c := by
  unfold firecrawlLinks
  rw [firecrawl_fold_mem pageUrl links [] c]
  simp

/-! ## Per-candidate retention conditions exactly as the code tests them -/

theorem htmlKeep_some_iff (base a c : String) :
    htmlKeep base a = some c ↔
      ¬((⟨urldefragL a.data⟩ : String) = ""
          ∨ "#".data.isPrefixOf (urldefragL a.data) = true
          ∨ "javascript:".data.isPrefixOf (urldefragL a.data) = true
          ∨ "mailto:".data.isPrefixOf (urldefragL a.data) = true
          ∨ "tel:".data.isPrefixOf (urldefragL a.data) = true)
      ∧ (parseURL (canonicalL (urljoinL base.data (urldefragL a.data)))).netloc
          = (parseURL base.data).netloc
      ∧ c = ⟨canonicalL (urljoinL base.data (urldefragL a.data))⟩ := by
  have hred : htmlKeep base a
      = if (⟨urldefragL a.data⟩ : String) = ""
            ∨ "#".data.isPrefixOf (urldefragL a.data) = true
            ∨ "javascript:".data.isPrefixOf (urldefragL a.data) = true
            ∨ "mailto:".data.isPrefixOf (urldefragL a.data) = true
            ∨ "tel:".data.isPrefixOf (urldefragL a.data) = true
        then none
        else if (parseURL (canonicalL (urljoinL base.data (urldefragL a.data)))).netloc
            = (parseURL base.data).netloc
          then some ⟨canonicalL (urljoinL base.data (urldefragL a.data))⟩
          else none := rfl
  rw [hred]
  by_cases hrej : (⟨urldefragL a.data⟩ : String) = ""
      ∨ "#".data.isPrefixOf (urldefragL a.data) = true
      ∨ "javascript:".data.isPrefixOf (urldefragL a.data) = true
      ∨ "mailto:".data.isPrefixOf (urldefragL a.data) = true
      ∨ "tel:".data.isPrefixOf (urldefragL a.data) = true
  · rw [if_pos hrej]
    apply iff_of_false
    · intro h
      cases h
    · rintro ⟨hn, _, _⟩
      exact hn hrej
  · rw [if_neg hrej]
    by_cases hnet : (parseURL (canonicalL (urljoinL base.data (urldefragL a.data)))).netloc
        = (parseURL base.data).netloc
    · rw [if_pos hnet]
      constructor
      · intro h
        injection h with h2
        exact ⟨hrej, hnet, h2.symm⟩
      · rintro ⟨_, _, rfl⟩
        rfl
    · rw [if_neg hnet]
      apply iff_of_false
      · intro h
        cases h
      · rintro ⟨_, hn, _⟩
        exact hnet hn

theorem firecrawlKeep_some_iff (pageUrl l c : String) :
    firecrawlKeep pageUrl l = some c ↔
      isCrawlableUrl l = true ∧ isSameDomain (canonical l) pageUrl = true
        ∧ c = canonical l := by
  have hred : firecrawlKeep pageUrl l
      = if (!isCrawlableUrl l) = true then none
        else if isSameDomain (canonical l) pageUrl = true then some (canonical l)
        else none := rfl
  rw [hred]
  by_cases hcr : isCrawlableUrl l = true
  · rw [if_neg (by simp [hcr])]
    by_cases hsd : isSameDomain (canonical l) pageUrl = true
    · rw [if_pos hsd]
      constructor
      · intro h
        injection h with h2
        exact ⟨hcr, hsd, h2.symm⟩
      · rintro ⟨_, _, rfl⟩
        rfl
    · rw [if_neg hsd]
      apply iff_of_false
      · intro h
        cases h
      · rintro ⟨_, h2, _⟩
        exact hsd h2
  · rw [if_pos (by simp [Bool.not_eq_true] at hcr ⊢; exact hcr)]
    apply iff_of_false
    · intro h
      cases h
    · rintro ⟨h1, _, _⟩
      exact hcr h1

/-- For a well-formed absolute `http(s)` candidate, the HTML filter keeps
it exactly when its canonicalized netloc equals the base netloc character
for character: the marker prefixes never fire, `urljoin` returns the
candidate unchanged, and no `www`-stripping is applied. -/
theorem htmlKeep_render_absolute (b v : ValidURL) (hb : b.WF) (hv : v.WF)
    (hbs : b.scheme = "http".data ∨ b.scheme = "https".data)
    (hvs : v.scheme = "http".data ∨ v.scheme = "https".data)
    (hvf : v.fragment = none) (hvq : v.query ≠ some []) :
    htmlKeep ⟨b.render⟩ ⟨v.render⟩
      = if (parseURL (canonicalL v.render)).netloc = (parseURL b.render).netloc
        then some ⟨canonicalL v.render⟩ else none := by
  have hdefrag : urldefragL v.render = v.render :=
    urldefragL_no_hash (hash_not_in_render hv hvf)
  have hgen : ∀ p : List Char, ':' ∉ p → p ≠ "http".data → p ≠ "https".data →
      (p ++ ':' :: []).isPrefixOf v.render = false := by
    intro p hp hp1 hp2
    by_contra hcon
    rw [Bool.not_eq_false] at hcon
    have h2 := (startsWith_scheme_colon v hv.1 p [] hp).mp hcon
    rcases hvs with h3 | h3 <;> rw [h3] at h2
    · exact hp1 h2.1
    · exact hp2 h2.1
  have hj : "javascript:".data.isPrefixOf v.render = false := by
    have h2 := hgen "javascript".data (by decide) (by decide) (by decide)
    have h3 : "javascript:".data = "javascript".data ++ ':' :: [] := by decide
    rw [h3]
    exact h2
  have hm : "mailto:".data.isPrefixOf v.render = false := by
    have h2 := hgen "mailto".data (by decide) (by decide) (by decide)
    have h3 : "mailto:".data = "mailto".data ++ ':' :: [] := by decide
    rw [h3]
    exact h2
  have ht : "tel:".data.isPrefixOf v.render = false := by
    have h2 := hgen "tel".data (by decide) (by decide) (by decide)
    have h3 : "tel:".data = "tel".data ++ ':' :: [] := by decide
    rw [h3]
    exact h2
  have hhash : "#".data.isPrefixOf v.render = false := render_not_hash_start v hv.1
  have hjoin : urljoinL b.render v.render = v.render := urljoinL_absolute hb hv hbs hvf hvq
  have hred : htmlKeep ⟨b.render⟩ ⟨v.render⟩
      = if (⟨urldefragL v.render⟩ : String) = ""
            ∨ "#".data.isPrefixOf (urldefragL v.render) = true
            ∨ "javascript:".data.isPrefixOf (urldefragL v.render) = true
            ∨ "mailto:".data.isPrefixOf (urldefragL v.render) = true
            ∨ "tel:".data.isPrefixOf (urldefragL v.render) = true
        then none
        else if (parseURL (canonicalL (urljoinL b.render (urldefragL v.render)))).netloc
            = (parseURL b.render).netloc
          then some ⟨canonicalL (urljoinL b.render (urldefragL v.render))⟩
          else none := rfl
  rw [hred, hdefrag, hjoin]
  rw [if_neg]
  rintro (h1 | h1 | h1 | h1 | h1)
  · have h2 : v.render = [] := congrArg String.data h1
    exact render_ne_nil v h2
  · rw [hhash] at h1
    cases h1
  · rw [hj] at h1
    cases h1
  · rw [hm] at h1
    cases h1
  · rw [ht] at h1
    cases h1

/-- Modelled from the spec: a candidate link is retained iff, after
fragment stripping it is non-empty, after resolution against the base and
canonicalization its scheme is `http` or `https`, and its host after
stripping one leading `www.` label equals the base host after the same
stripping (both compared lower-cased). -/
def specStripWww (h : List Char) : List Char :=
  if "www.".data.isPrefixOf h then h.drop 4 else h

/-- Modelled from the spec: the retention rule of section 4.5 as a
predicate on one candidate. -/
def specRetains (base cand : String) : Bool :=
  let href := urldefragL cand.data
  if href = [] then false
  else
    let p := parseURL (canonicalL (urljoinL base.data href))
    ((p.scheme == "http".data) || (p.scheme == "https".data))
      && (specStripWww (lower p.netloc) == specStripWww (lower (parseURL base.data).netloc))

example : specRetains "https://example.com" "https://www.example.com/x" = true := by decide

example : specRetains "https://example.com" "/about" = true := by decide

example : specRetains "https://example.com" "javascript:void(0)" = false := by decide

example : specRetains "https://example.com" "ftp://example.com/x" = false := by decide

example : specRetains "https://web.com/x" "https://eb.com/y" = false := by decide

/-- A state the fuelled loop returns fails the `while` guard: termination
is only by frontier exhaustion, depth overrun or the page cutoff. -/
theorem crawlRun_not_loopCond {cfg : CrawlConfig} {web : Web} :
    ∀ {fuel : Nat} {st st' : CrawlState},
      crawlRun cfg web fuel st = some st' → ¬ loopCond cfg st' := by
  intro fuel
  induction fuel with
  | zero =>
    intro st st' h
    simp [crawlRun] at h
  | succ n ih =>
    intro st st' h
    unfold crawlRun at h
    by_cases hc : loopCond cfg st
    · rw [if_pos hc] at h
      exact ih h
    · rw [if_neg hc] at h
      injection h with h2
      rw [← h2]
      exact hc

/-! ## The claims -/

/-- C1: the spec's frontier no-duplication invariant ("fetched exactly
once over the life of the crawl") fails in the code: a URL that belongs
to the batch currently being processed has already been removed from the
frontier and is not yet in `processed`, so a link to it discovered on
another page of the same batch is re-added and the URL is dispatched to
the Fetcher a second time.  A seed linking to itself is fetched twice,
and with seed `S → {P1, P2}` and `P1 → P2`, `P2` is fetched twice. -/
theorem C1_url_fetched_twice :
    (crawl ⟨1, 5⟩ selfWeb 10 "https://example.com").map (fun st => st.fetchLog)
      = some ["https://example.com", "https://example.com"]
    ∧ (crawl ⟨2, 100⟩ siblingWeb 10 "https://example.com").map
        (fun st => st.fetchLog.count "https://example.com/p2") = some 2 := by
  decide

/-- C2 (amended): the legacy `upsert_page` of src/src/crawler.py behaves
as claimed — both flags compare the stored checksums with the recomputed
ones, the two change timestamps advance exactly on the respective
difference and `last_seen` advances unconditionally — but the live
`PostgresStorage.upsert_page` computes a single markdown checksum of
`clean_text`, returns `False` as the second flag unconditionally, and
keeps no head checksum at all. -/
theorem C2_upsert_change_flags (s' : List (List Char × PageRow)) (now : Nat)
    (url title cleanText : List Char) (contentCs headCs : Digest) (old : PageRow)
    (sp' : List (List Char × PGRow)) (nowp : Nat) (assets : PageAssets) (oldp : PGRow) :
    ((Legacy.upsert_page ((url, old) :: s') now url title cleanText contentCs headCs).1
        = (decide (old.contentChecksum ≠ contentCs), decide (old.htmlChecksum ≠ headCs))
      ∧ ∃ row : PageRow,
          lookupRow (Legacy.upsert_page ((url, old) :: s') now url title cleanText
              contentCs headCs).2 url = some row
          ∧ row.lastSeen = now
          ∧ row.contentChanged
              = (if old.contentChecksum ≠ contentCs then now else old.contentChanged)
          ∧ row.htmlChanged = (if old.htmlChecksum ≠ headCs then now else old.htmlChanged))
    ∧ ((PostgresStorage.upsert_page ((assets.url, oldp) :: sp') nowp assets).1
        = (decide (oldp.markdownChecksum ≠ sha256 assets.cleanText), false)
      ∧ ∃ rowp : PGRow,
          lookupPG (PostgresStorage.upsert_page ((assets.url, oldp) :: sp') nowp assets).2
              assets.url = some rowp
          ∧ rowp.lastSeen = nowp
          ∧ rowp.markdownChanged
              = (if oldp.markdownChecksum ≠ sha256 assets.cleanText then nowp
                 else oldp.markdownChanged)
          ∧ rowp.summaryVec = oldp.summaryVec ∧ rowp.embeddedAt = oldp.embeddedAt) := by
  have hold : lookupRow ((url, old) :: s') url = some old := by
    have hfind : List.find? (fun r => r.1 == url) ((url, old) :: s') = some (url, old) :=
      List.find?_cons_of_pos _ (by simp)
    unfold lookupRow
    rw [hfind]
    rfl
  have holdp : lookupPG ((assets.url, oldp) :: sp') assets.url = some oldp := by
    have hfind : List.find? (fun r => r.1 == assets.url) ((assets.url, oldp) :: sp')
        = some (assets.url, oldp) := List.find?_cons_of_pos _ (by simp)
    unfold lookupPG
    rw [hfind]
    rfl
  obtain ⟨hfl, row, hlu, hls, _, _, hcch, hhch⟩ := legacy_upsert_page_existing hold
  obtain ⟨hpf, rowp, hplu, hpls, hpmc, hpsv, hpea⟩ := pg_upsert_page_existing holdp
  exact ⟨⟨hfl, row, hlu, hls, hcch, hhch⟩, hpf, rowp, hplu, hpls, hpmc, hpsv, hpea⟩

/-- C2 counterexample: two fetches of the same page whose head (robots
meta, raw HTML and stored SEO head) changes while the clean text does
not: the head checksums of the two parses differ, yet the second live
upsert reports `(False, False)` — no `html_changed` flag exists in the
live path. -/
theorem C2_head_change_unreported :
    compute_head_checksum
        ⟨some "T".data, "T".data, some "D".data, some "index".data, none, [], [],
          "body".data, []⟩
      ≠ compute_head_checksum
        ⟨some "T".data, "T".data, some "D".data, some "noindex".data, none, [], [],
          "body".data, []⟩
    ∧ (PostgresStorage.upsert_page
        (PostgresStorage.upsert_page [] 0
          ⟨"u".data, "<p>1</p>".data, "body".data, "robots:index".data, "T".data⟩).2
        1 ⟨"u".data, "<p>2</p>".data, "body".data, "robots:noindex".data, "T".data⟩).1
      = (false, false) := by
  decide

/-- C3 (amended): on a well-formed rendered URL the canonicalizer
lower-cases the host, drops the fragment and strips trailing slashes
(from the query when one is present, else from the path), but keeps the
host's leading `www.` label and the query text — order included —
verbatim. -/
theorem C3_canonical_behavior (v : ValidURL) (h : v.WF)
    (hq : v.query.getD [] = [] ∨ rstripSlash (v.query.getD []) ≠ []) :
    canonical ⟨v.render⟩
      = ⟨if v.query.getD [] = []
         then assemble v.scheme (lower v.host) (rstripSlash v.path) []
         else assemble v.scheme (lower v.host) v.path (rstripSlash (v.query.getD []))⟩ := by
  show (⟨canonicalL v.render⟩ : String) = _
  exact congrArg String.mk (canonicalL_render v h hq)

/-- C3 witness: the amended behavior at the spec's own example URL. -/
theorem C3_canonical_behavior_witness :
    (ValidURL.mk "https".data "WWW.Example.com".data "/a/".data
        (some "b=2&a=1".data) none).WF
    ∧ ((ValidURL.mk "https".data "WWW.Example.com".data "/a/".data
          (some "b=2&a=1".data) none).query.getD [] = []
        ∨ rstripSlash ((ValidURL.mk "https".data "WWW.Example.com".data "/a/".data
            (some "b=2&a=1".data) none).query.getD []) ≠ [])
    ∧ canonical ⟨(ValidURL.mk "https".data "WWW.Example.com".data "/a/".data
          (some "b=2&a=1".data) none).render⟩
      = ⟨if (ValidURL.mk "https".data "WWW.Example.com".data "/a/".data
              (some "b=2&a=1".data) none).query.getD [] = []
         then assemble "https".data (lower "WWW.Example.com".data) (rstripSlash "/a/".data) []
         else assemble "https".data (lower "WWW.Example.com".data) "/a/".data
           (rstripSlash ((ValidURL.mk "https".data "WWW.Example.com".data "/a/".data
              (some "b=2&a=1".data) none).query.getD []))⟩ :=
  ⟨by decide, by decide, C3_canonical_behavior _ (by decide) (by decide)⟩

/-- C3 counterexample: the spec's equivalence pair maps to two distinct
canonical strings — no `www.` strip and no query-key sort happen. -/
theorem C3_equivalence_fails :
    canonical "https://WWW.Example.com/a/?b=2&a=1" = "https://www.example.com/a/?b=2&a=1"
    ∧ canonical "https://example.com/a?a=1&b=2" = "https://example.com/a?a=1&b=2"
    ∧ canonical "https://WWW.Example.com/a/?b=2&a=1"
        ≠ canonical "https://example.com/a?a=1&b=2" := by
  decide

/-- C4 (amended): the loop guard is only checked once per iteration, so a
returned crawl state fails it — frontier exhausted, depth overrun, or
`processed` at or past `max_pages` — and a 10-page chain with
`max_pages = 3` stops at exactly 3 processed pages; but a whole batch is
processed past the cutoff, so `processed` can overshoot `max_pages` (see
the counterexample). -/
theorem C4_termination_guard (cfg : CrawlConfig) (web : Web) (fuel : Nat) (start : String)
    (st' : CrawlState) (hrun : crawl cfg web fuel start = some st') :
    (st'.frontier = [] ∨ cfg.maxDepth < st'.currentDepth
      ∨ cfg.maxPages ≤ st'.processed.length)
    ∧ (crawl ⟨100, 3⟩ chain10Web 20 "https://example.com").map
        (fun s2 => s2.processed.length) = some 3 := by
  constructor
  · have hnl : ¬ loopCond cfg st' := by
      unfold crawl at hrun
      exact crawlRun_not_loopCond hrun
    unfold loopCond at hnl
    by_cases h1 : st'.frontier = []
    · exact Or.inl h1
    · by_cases h2 : st'.currentDepth ≤ cfg.maxDepth
      · by_cases h3 : st'.processed.length < cfg.maxPages
        · exact absurd ⟨h1, h2, h3⟩ hnl
        · exact Or.inr (Or.inr (by omega))
      · exact Or.inr (Or.inl (by omega))
  · decide

/-- C4 witness: the guard characterization at a concrete one-step run. -/
theorem C4_termination_guard_witness :
    crawl ⟨0, 0⟩ (fun _ => none) 1 "https://a.com"
      = some ⟨["https://a.com"], [("https://a.com", 0)], [], 0, []⟩
    ∧ (((⟨["https://a.com"], [("https://a.com", 0)], [], 0, []⟩ : CrawlState).frontier = []
        ∨ (0 : Nat)
            < (⟨["https://a.com"], [("https://a.com", 0)], [], 0, []⟩ : CrawlState).currentDepth
        ∨ (0 : Nat) ≤ (⟨["https://a.com"], [("https://a.com", 0)], [], 0,
            []⟩ : CrawlState).processed.length)
      ∧ (crawl ⟨100, 3⟩ chain10Web 20 "https://example.com").map
          (fun s2 => s2.processed.length) = some 3) :=
  ⟨by decide, C4_termination_guard ⟨0, 0⟩ (fun _ => none) 1 "https://a.com"
      ⟨["https://a.com"], [("https://a.com", 0)], [], 0, []⟩ (by decide)⟩

/-- C4 counterexample: with `max_pages = 3` and a seed star of 10
reachable pages the whole depth-1 batch is processed before the guard is
re-checked, so the run ends with 10 processed pages, not 3. -/
theorem C4_max_pages_overshoot :
    (crawl ⟨3, 3⟩ starWeb 10 "https://example.com").map (fun st => st.processed.length)
      = some 10 := by
  decide

/-- C5: bounded traversal holds — every URL a finished crawl dispatched
to the Fetcher is reachable from the canonicalized seed in at most
`max_depth` link hops, and on the chain `A → B → C` with `max_depth = 1`
exactly `A` and `B` are processed while `C` is never fetched. -/
theorem C5_bounded_traversal (cfg : CrawlConfig) (web : Web) (fuel : Nat) (start : String)
    (st' : CrawlState) (hrun : crawl cfg web fuel start = some st') :
    (∀ u ∈ st'.fetchLog, ReachWithin web (canonical start) cfg.maxDepth u)
    ∧ (crawl ⟨1, 100⟩ chainWeb 10 "https://example.com").map (fun s2 => s2.processed)
        = some ["https://example.com", "https://example.com/b"]
    ∧ (crawl ⟨1, 100⟩ chainWeb 10 "https://example.com").map
        (fun s2 => s2.fetchLog.contains "https://example.com/c") = some false :=
  ⟨crawl_fetch_within_maxDepth hrun, by decide, by decide⟩

/-- C5 witness: the depth bound at the finished chain run itself. -/
theorem C5_bounded_traversal_witness :
    crawl ⟨1, 100⟩ chainWeb 10 "https://example.com"
      = some ⟨[], [("https://example.com/b", 1), ("https://example.com", 0)],
          ["https://example.com", "https://example.com/b"], 2,
          ["https://example.com", "https://example.com/b"]⟩
    ∧ ((∀ u ∈ (⟨[], [("https://example.com/b", 1), ("https://example.com", 0)],
          ["https://example.com", "https://example.com/b"], 2,
          ["https://example.com", "https://example.com/b"]⟩ : CrawlState).fetchLog,
          ReachWithin chainWeb (canonical "https://example.com") 1 u)
        ∧ (crawl ⟨1, 100⟩ chainWeb 10 "https://example.com").map (fun s2 => s2.processed)
            = some ["https://example.com", "https://example.com/b"]
        ∧ (crawl ⟨1, 100⟩ chainWeb 10 "https://example.com").map
            (fun s2 => s2.fetchLog.contains "https://example.com/c") = some false) :=
  ⟨by decide, C5_bounded_traversal ⟨1, 100⟩ chainWeb 10 "https://example.com"
      ⟨[], [("https://example.com/b", 1), ("https://example.com", 0)],
        ["https://example.com", "https://example.com/b"], 2,
        ["https://example.com", "https://example.com/b"]⟩ (by decide)⟩

/-- C6 (amended): a title change alters the head checksum provided the
stripped titles differ, and a visible-text change alters the content
checksum provided the collapsed and stripped texts differ, with the head
checksum untouched in the latter case. -/
theorem C6_checksum_sensitivity (d : HtmlDoc) (t1 t2 : Option (List Char))
    (v1 v2 : List Char) (hT : strippedTitle t1 ≠ strippedTitle t2)
    (hV : stripWS (collapseWS v1) ≠ stripWS (collapseWS v2)) :
    compute_head_checksum { d with title := t1 }
        ≠ compute_head_checksum { d with title := t2 }
    ∧ (content_and_hash { d with visibleText := v1 }).2
        ≠ (content_and_hash { d with visibleText := v2 }).2
    ∧ compute_head_checksum { d with visibleText := v1 }
        = compute_head_checksum { d with visibleText := v2 } :=
  ⟨headChecksum_title_sensitive d t1 t2 hT, (content_visible_sensitive d v1 v2 hV).1,
   (content_visible_sensitive d v1 v2 hV).2⟩

/-- C6 witness: the sensitivity statement at one concrete document. -/
theorem C6_checksum_sensitivity_witness :
    strippedTitle (some "A".data) ≠ strippedTitle (some "B".data)
    ∧ stripWS (collapseWS "x".data) ≠ stripWS (collapseWS "y".data)
    ∧ (compute_head_checksum
          { (⟨some "T".data, "T".data, none, none, none, [], [], "body".data,
              []⟩ : HtmlDoc) with title := some "A".data }
        ≠ compute_head_checksum
          { (⟨some "T".data, "T".data, none, none, none, [], [], "body".data,
              []⟩ : HtmlDoc) with title := some "B".data }
      ∧ (content_and_hash
          { (⟨some "T".data, "T".data, none, none, none, [], [], "body".data,
              []⟩ : HtmlDoc) with visibleText := "x".data }).2
        ≠ (content_and_hash
          { (⟨some "T".data, "T".data, none, none, none, [], [], "body".data,
              []⟩ : HtmlDoc) with visibleText := "y".data }).2
      ∧ compute_head_checksum
          { (⟨some "T".data, "T".data, none, none, none, [], [], "body".data,
              []⟩ : HtmlDoc) with visibleText := "x".data }
        = compute_head_checksum
          { (⟨some "T".data, "T".data, none, none, none, [], [], "body".data,
              []⟩ : HtmlDoc) with visibleText := "y".data }) :=
  ⟨by decide, by decide, C6_checksum_sensitivity _ _ _ _ _ (by decide) (by decide)⟩

/-- C6 counterexample: both checksums normalize whitespace before
hashing, so a title change `"a"` to `"a "` leaves the head checksum
unchanged and a visible-text change `"a"` to `"a "` leaves the content
checksum unchanged — the claim's unconditional "differs" fails. -/
theorem C6_whitespace_insensitive :
    (some "a".data ≠ some "a ".data
      ∧ compute_head_checksum
          ⟨some "a".data, "a".data, some "D".data, none, none, [], [], "body".data, []⟩
        = compute_head_checksum
          ⟨some "a ".data, "a".data, some "D".data, none, none, [], [], "body".data, []⟩)
    ∧ ("a".data ≠ "a ".data
      ∧ (content_and_hash
          ⟨some "T".data, "T".data, none, none, none, [], [], "a".data, []⟩).2
        = (content_and_hash
          ⟨some "T".data, "T".data, none, none, none, [], [], "a ".data, []⟩).2) := by
  decide

/-- C7 (amended): canonicalization is idempotent on every well-formed URL
whose query, when present, does not consist of `/` characters only. -/
theorem C7_canonical_idempotent (v : ValidURL) (h : v.WF)
    (hq : v.query.getD [] = [] ∨ rstripSlash (v.query.getD []) ≠ []) :
    canonical (canonical ⟨v.render⟩) = canonical ⟨v.render⟩ := by
  show (⟨canonicalL (canonicalL v.render)⟩ : String) = ⟨canonicalL v.render⟩
  exact congrArg String.mk (canonicalL_idem_of_WF v h hq)

/-- C7 witness: idempotence at a concrete well-formed URL. -/
theorem C7_canonical_idempotent_witness :
    (ValidURL.mk "https".data "Example.com".data "/a/".data none none).WF
    ∧ ((ValidURL.mk "https".data "Example.com".data "/a/".data none none).query.getD [] = []
        ∨ rstripSlash ((ValidURL.mk "https".data "Example.com".data "/a/".data
            none none).query.getD []) ≠ [])
    ∧ canonical (canonical
          ⟨(ValidURL.mk "https".data "Example.com".data "/a/".data none none).render⟩)
      = canonical ⟨(ValidURL.mk "https".data "Example.com".data "/a/".data
          none none).render⟩ :=
  ⟨by decide, by decide, C7_canonical_idempotent _ (by decide) (by decide)⟩

/-- C7 counterexample: on the valid URL `https://example.com/p?/` the
trailing `rstrip('/')` eats the whole query, leaving a dangling `?` that
the second canonicalization pass then drops — idempotence fails. -/
theorem C7_not_idempotent_on_slash_query :
    (parseURL "https://example.com/p?/".data).scheme = "https".data
    ∧ canonical "https://example.com/p?/" = "https://example.com/p?"
    ∧ canonical (canonical "https://example.com/p?/") = "https://example.com/p"
    ∧ canonical (canonical "https://example.com/p?/")
        ≠ canonical "https://example.com/p?/" := by
  decide

/-- C8 (amended): a candidate from the HTML path is retained iff its
defragmented form is non-empty, starts with none of `#`, `javascript:`,
`mailto:`, `tel:` (no general scheme check), and its canonicalized
resolution has exactly the base's netloc (no `www`-stripping); a
backend-list candidate is retained iff it starts with `http://` or
`https://` and `is_same_domain` accepts its canonical form (a char-set
`www`-strip comparison); and for a well-formed absolute `http(s)`
candidate the HTML decision is exactly the netloc comparison. -/
theorem C8_link_retention (base c : String) (hrefs links : List String) :
    (c ∈ sameDomainLinksHrefs base hrefs ↔ ∃ a ∈ hrefs, htmlKeep base a = some c)
    ∧ (c ∈ firecrawlLinks base links ↔ ∃ l ∈ links, firecrawlKeep base l = some c)
    ∧ (∀ a : String, htmlKeep base a = some c ↔
        ¬((⟨urldefragL a.data⟩ : String) = ""
            ∨ "#".data.isPrefixOf (urldefragL a.data) = true
            ∨ "javascript:".data.isPrefixOf (urldefragL a.data) = true
            ∨ "mailto:".data.isPrefixOf (urldefragL a.data) = true
            ∨ "tel:".data.isPrefixOf (urldefragL a.data) = true)
          ∧ (parseURL (canonicalL (urljoinL base.data (urldefragL a.data)))).netloc
              = (parseURL base.data).netloc
          ∧ c = ⟨canonicalL (urljoinL base.data (urldefragL a.data))⟩)
    ∧ (∀ l : String, firecrawlKeep base l = some c ↔
        isCrawlableUrl l = true ∧ isSameDomain (canonical l) base = true
          ∧ c = canonical l)
    ∧ (∀ b2 v2 : ValidURL, b2.WF → v2.WF →
        (b2.scheme = "http".data ∨ b2.scheme = "https".data) →
        (v2.scheme = "http".data ∨ v2.scheme = "https".data) →
        v2.fragment = none → v2.query ≠ some [] →
        htmlKeep ⟨b2.render⟩ ⟨v2.render⟩
          = if (parseURL (canonicalL v2.render)).netloc = (parseURL b2.render).netloc
            then some ⟨canonicalL v2.render⟩ else none) :=
  ⟨mem_sameDomainLinksHrefs base c hrefs, mem_firecrawlLinks base c links,
   fun a => htmlKeep_some_iff base a c, fun l => firecrawlKeep_some_iff base l c,
   fun b2 v2 hb2 hv2 hbs2 hvs2 hvf2 hvq2 =>
     htmlKeep_render_absolute b2 v2 hb2 hv2 hbs2 hvs2 hvf2 hvq2⟩

/-- C8 counterexample: the spec's retention rule and the code disagree in
both directions on both paths — a same-domain-up-to-`www.` link the spec
retains is dropped by the HTML path, an `ftp:` link the spec rejects is
retained by the HTML path, and a cross-domain link the spec rejects is
retained by the backend-list path. -/
theorem C8_spec_rule_mismatch :
    (specRetains "https://example.com" "https://www.example.com/x" = true
      ∧ htmlKeep "https://example.com" "https://www.example.com/x" = none
      ∧ sameDomainLinksHrefs "https://example.com" ["https://www.example.com/x"] = [])
    ∧ (specRetains "https://example.com" "ftp://example.com/x" = false
      ∧ htmlKeep "https://example.com" "ftp://example.com/x" = some "ftp://example.com/x")
    ∧ (specRetains "https://web.com/x" "https://eb.com/y" = false
      ∧ firecrawlLinks "https://web.com/x" ["https://eb.com/y"] = ["https://eb.com/y"]) := by
  decide

/-- C9 (amended): `pages_for_embedding` returns exactly the stored rows
whose `summary_vec` is null, as `(url, clean_text)` pairs — the
`embedded_at` / content-changed comparison of the spec is not consulted. -/
theorem C9_pages_for_embedding_null_vec (s : List (List Char × PGRow))
    (u t : List Char) :
    (u, t) ∈ PostgresStorage.pages_for_embedding s
      ↔ ∃ r : PGRow, (u, r) ∈ s ∧ r.summaryVec = none ∧ r.cleanText = t :=
  pages_for_embedding_mem s u t

/-- C9 counterexample: a page whose content changed (tick 9) after it was
last embedded (tick 5) but whose summary vector is set is selected by the
spec's rule and skipped by the code. -/
theorem C9_changed_page_skipped :
    PostgresStorage.pages_for_embedding
        [("u".data, ⟨"T".data, "c".data, "h".data, sha256 "c".data, 9, "m".data, 9,
            some [1], some 5⟩)] = []
    ∧ spec_pages_for_embedding
        [("u".data, ⟨"T".data, "c".data, "h".data, sha256 "c".data, 9, "m".data, 9,
            some [1], some 5⟩)]
      = [("u".data, "c".data)] := by
  decide

/-- C10: `is_same_domain` uses `lstrip('www.')`, which removes every
leading `w` or `.` character: the hosts `web.com` and `eb.com` are
distinct and do not differ by a leading `www.` label, yet they compare
equal, and the backend-list filter consequently retains the cross-domain
link `https://eb.com/y` on a `https://web.com/x` page. -/
theorem C10_strip_www_overmatch :
    isSameDomain "https://web.com/x" "https://eb.com/y" = true
    ∧ "web.com".data ≠ "eb.com".data
    ∧ "web.com".data ≠ "www.".data ++ "eb.com".data
    ∧ "eb.com".data ≠ "www.".data ++ "web.com".data
    ∧ stripWww "web.com".data = "eb.com".data
    ∧ firecrawlLinks "https://web.com/x" ["https://eb.com/y"] = ["https://eb.com/y"] := by
  decide

end WebScraper
